import Mathlib

/-! # node-gibson client: a shallow embedding of `lib/gibson.js`

The protocol engine of the client (`append_chunk`, `decode`,
`handle_incoming_data`, `query`) is embedded as Lean functions over lists of
bytes.  Node's `Buffer` primitives used by the source are modelled next to the
functions that call them; exceptions are explicit (`Except JSError`), and the
`while` loop of `handle_incoming_data` is run with a fuel argument so that a
loop that never exits is observable.
-/

namespace Gibson

/-! ## Bytes and Node `Buffer` primitives -/

/-- One octet of a Node `Buffer`. -/
abbrev Byte := Fin 256

/-- Exceptions the embedded code can raise. -/
inductive JSError
  /-- a `Buffer` read or write outside the buffer or outside the value range -/
  | rangeError
  /-- property access on `null` -/
  | typeError
  /-- what `EventEmitter.emit('error', msg)` throws when no listener is registered -/
  | unhandledError (msg : String)
  deriving DecidableEq

/-- Equality of results is decidable. -/
instance exceptDecEq {ε α : Type} [DecidableEq ε] [DecidableEq α] : DecidableEq (Except ε α)
  | .ok a, .ok b => if h : a = b then isTrue (by rw [h]) else isFalse (by intro e; cases e; exact h rfl)
  | .error a, .error b =>
    if h : a = b then isTrue (by rw [h]) else isFalse (by intro e; cases e; exact h rfl)
  | .ok _, .error _ => isFalse (by intro e; cases e)
  | .error _, .ok _ => isFalse (by intro e; cases e)

/-- The octet at index `i`, as a number (`0` past the end; callers check bounds). -/
def byteAt (b : List Byte) (i : Nat) : Nat := (b.getD i 0).val

/-- `buf.readUInt8(off)`. -/
def readUInt8 (b : List Byte) (off : Nat) : Except JSError Nat :=
  if off + 1 ≤ b.length then .ok (byteAt b off) else .error .rangeError

/-- `buf.readUInt16LE(off)`. -/
def readUInt16LE (b : List Byte) (off : Nat) : Except JSError Nat :=
  if off + 2 ≤ b.length then .ok (byteAt b off + 256 * byteAt b (off + 1))
  else .error .rangeError

/-- `buf.readUInt32LE(off)`. -/
def readUInt32LE (b : List Byte) (off : Nat) : Except JSError Nat :=
  if off + 4 ≤ b.length then
    .ok (byteAt b off + 256 * byteAt b (off + 1) + 65536 * byteAt b (off + 2)
          + 16777216 * byteAt b (off + 3))
  else .error .rangeError

/-- `buf.readInt32LE(off)`: the unsigned word reinterpreted as two's complement. -/
def readInt32LE (b : List Byte) (off : Nat) : Except JSError Int :=
  match readUInt32LE b off with
  | .ok w => if w < 2147483648 then .ok (w : Int) else .ok ((w : Int) - 4294967296)
  | .error e => .error e

/-- `new Buffer(n)`: `n` octets.  Their initial content is zero in current Node
and unspecified in older versions; it matters only where the code reads octets
it did not write. -/
def newBuffer (n : Nat) : List Byte := List.replicate n 0

/-- `src.copy(target, targetStart, sourceStart, sourceEnd)`: the octets
`src[sourceStart, min sourceEnd src.length)` overwrite `target` from
`targetStart`, as many as fit; the result is the new content of `target`. -/
def bufCopy (src target : List Byte) (targetStart sourceStart sourceEnd : Nat) : List Byte :=
  let seg := (((src.take sourceEnd).drop sourceStart).take (target.length - targetStart))
  target.take targetStart ++ seg ++ target.drop (targetStart + seg.length)

/-- `buf.slice(start)`. -/
def bufSlice (b : List Byte) (start : Nat) : List Byte := b.drop start

/-- `Buffer.concat([a, b])`. -/
def bufConcat (a b : List Byte) : List Byte := a ++ b

/-! ## UTF-8 (`Buffer.byteLength`, `buf.write`, `buf.toString`)

JavaScript text is modelled as a Lean `String`, a sequence of Unicode scalar
values (a text with an unpaired surrogate has no UTF-8 form). -/

/-- The UTF-8 octets of one scalar value `n`. -/
def utf8EncodeNat (n : Nat) : List Nat :=
  if n < 0x80 then [n]
  else if n < 0x800 then [0xC0 + n / 64, 0x80 + n % 64]
  else if n < 0x10000 then [0xE0 + n / 4096, 0x80 + n / 64 % 64, 0x80 + n % 64]
  else [0xF0 + n / 262144 % 8, 0x80 + n / 4096 % 64, 0x80 + n / 64 % 64, 0x80 + n % 64]

/-- The UTF-8 octets of one character. -/
def utf8EncodeChar (c : Char) : List Byte :=
  (utf8EncodeNat c.toNat).map (Fin.ofNat)

/-- The UTF-8 octets of a string (what `new Buffer(str)` holds). -/
def utf8Encode (s : String) : List Byte := s.data.flatMap utf8EncodeChar

/-- `Buffer.byteLength(str)`. -/
def byteLength (s : String) : Nat := (utf8Encode s).length

/-- U+FFFD, which Node substitutes for ill-formed input. -/
def replacementChar : Char := Char.ofNat 0xFFFD

/-- True for a continuation octet `10xxxxxx`. -/
def isCont (b : Byte) : Bool := 0x80 ≤ b.val && b.val < 0xC0

/-- True when `b1` can follow the lead octet `b0` of a three- or four-octet
sequence: `A0..BF` after `E0`, `80..9F` after `ED`, `90..BF` after `F0`,
`80..8F` after `F4`, and `80..BF` after the other lead octets (no overlong
form, no surrogate, nothing above U+10FFFF). -/
def secondOk (b0 b1 : Byte) : Bool :=
  if b0.val = 0xE0 then 0xA0 ≤ b1.val && b1.val < 0xC0
  else if b0.val = 0xED then 0x80 ≤ b1.val && b1.val < 0xA0
  else if b0.val = 0xF0 then 0x90 ≤ b1.val && b1.val < 0xC0
  else if b0.val = 0xF4 then 0x80 ≤ b1.val && b1.val < 0x90
  else isCont b1

/-- The first character of a non-empty octet sequence and the number of octets
it occupies, as `buf.toString('utf8')` decodes it in current Node: a
well-formed sequence gives its scalar value; otherwise the longest run of
octets that begins a well-formed sequence — or the single octet that begins
none — gives one U+FFFD, and decoding resumes at the octet that broke the
sequence. -/
def utf8DecodeOne (b0 : Byte) (t0 : List Byte) : Char × Nat :=
  if b0.val < 0x80 then (Char.ofNat b0.val, 1)
  else
    let b1 := t0.getD 0 0
    let b2 := t0.getD 1 0
    let b3 := t0.getD 2 0
    let n2 := (b0.val - 0xC0) * 64 + (b1.val - 0x80)
    let n3 := (b0.val - 0xE0) * 4096 + (b1.val - 0x80) * 64 + (b2.val - 0x80)
    let n4 := (b0.val - 0xF0) * 262144 + (b1.val - 0x80) * 4096
                + (b2.val - 0x80) * 64 + (b3.val - 0x80)
    if 0xC2 ≤ b0.val ∧ b0.val < 0xE0 then
      if 1 ≤ t0.length ∧ isCont b1 then (Char.ofNat n2, 2)
      else (replacementChar, 1)
    else if 0xE0 ≤ b0.val ∧ b0.val < 0xF0 then
      if ¬ (1 ≤ t0.length ∧ secondOk b0 b1) then (replacementChar, 1)
      else if ¬ (2 ≤ t0.length ∧ isCont b2) then (replacementChar, 2)
      else (Char.ofNat n3, 3)
    else if 0xF0 ≤ b0.val ∧ b0.val < 0xF5 then
      if ¬ (1 ≤ t0.length ∧ secondOk b0 b1) then (replacementChar, 1)
      else if ¬ (2 ≤ t0.length ∧ isCont b2) then (replacementChar, 2)
      else if ¬ (3 ≤ t0.length ∧ isCont b3) then (replacementChar, 3)
      else (Char.ofNat n4, 4)
    else (replacementChar, 1)

/-- The decoding loop; `fuel` bounds the number of characters produced. -/
def utf8DecodeAux : Nat → List Byte → List Char
  | 0, _ => []
  | _, [] => []
  | fuel + 1, b0 :: t0 =>
    (utf8DecodeOne b0 t0).1 :: utf8DecodeAux fuel (t0.drop ((utf8DecodeOne b0 t0).2 - 1))

/-- UTF-8 decoding of a whole octet sequence (every character occupies at least
one octet, so `b.length` steps suffice). -/
def utf8Decode (b : List Byte) : List Char := utf8DecodeAux b.length b

/-- `buf.toString()`: the whole buffer as UTF-8 text. -/
def bufToString (b : List Byte) : String := ⟨utf8Decode b⟩

/-- `buf.toString('utf8', start, end)`: `end` is clamped to the buffer. -/
def bufToStringRange (b : List Byte) (start stop : Nat) : String :=
  bufToString ((b.take stop).drop start)

/-- The octets of the longest prefix of whole characters of `cs` whose UTF-8
form fits in `room` octets. -/
def utf8Fit : List Char → Nat → List Byte
  | [], _ => []
  | c :: cs, room =>
    if (utf8EncodeChar c).length ≤ room then
      utf8EncodeChar c ++ utf8Fit cs (room - (utf8EncodeChar c).length)
    else []

/-- `buf.write(str, offset, length)`: the UTF-8 octets of `str` overwrite `target`
from `offset`; at most `length` octets and only whole characters are written. -/
def bufWrite (target : List Byte) (str : String) (offset length : Nat) : List Byte :=
  let fit := utf8Fit str.data (min length (target.length - offset))
  target.take offset ++ fit ++ target.drop (offset + fit.length)

/-- `buf.writeUInt32LE(value, offset)`. -/
def writeUInt32LE (target : List Byte) (value offset : Nat) : Except JSError (List Byte) :=
  if value < 4294967296 ∧ offset + 4 ≤ target.length then
    .ok (target.take offset ++
      [Fin.ofNat (value % 256), Fin.ofNat (value / 256 % 256),
       Fin.ofNat (value / 65536 % 256), Fin.ofNat (value / 16777216 % 256)] ++
      target.drop (offset + 4))
  else .error .rangeError

/-- `buf.writeUInt16LE(value, offset)`. -/
def writeUInt16LE (target : List Byte) (value offset : Nat) : Except JSError (List Byte) :=
  if value < 65536 ∧ offset + 2 ≤ target.length then
    .ok (target.take offset ++ [Fin.ofNat (value % 256), Fin.ofNat (value / 256 % 256)] ++
      target.drop (offset + 2))
  else .error .rangeError

/-! ## JavaScript numbers

Every number the client computes is an integer-valued double; it is modelled by
its exact integer value, and each arithmetic operation rounds the exact result
to the nearest double (53-bit significand, ties to even). -/

/-- The exponent `e` with `n < 2^(53+e)`, least such (`0` when `n < 2^53`);
`fuel` bounds the search. -/
def doubleExp (n : Nat) : Nat → Nat
  | 0 => 0
  | fuel + 1 => if n < 9007199254740992 then 0 else 1 + doubleExp (n / 2) fuel

/-- Round a natural number to the nearest double, ties to even. -/
def roundDoubleNat (n : Nat) : Nat :=
  let e := doubleExp n n
  let q := n / 2 ^ e
  let r := n % 2 ^ e
  if 2 * r < 2 ^ e then q * 2 ^ e
  else if 2 ^ e < 2 * r then (q + 1) * 2 ^ e
  else if q % 2 = 0 then q * 2 ^ e else (q + 1) * 2 ^ e

/-- Round an integer to the nearest double, ties to even. -/
def roundDouble (x : Int) : Int :=
  if 0 ≤ x then (roundDoubleNat x.toNat : Int) else - (roundDoubleNat (-x).toNat : Int)

/-- JavaScript `a + b` on integer-valued doubles. -/
def jsAdd (a b : Int) : Int := roundDouble (a + b)

/-- JavaScript `a * b` on integer-valued doubles. -/
def jsMul (a b : Int) : Int := roundDouble (a * b)

/-- `(~w) >>> 0` for an unsigned 32-bit `w`. -/
def compl32 (w : Nat) : Nat := 4294967295 - w % 4294967296

/-- Truth of `w & 0x80000000` for an unsigned 32-bit `w`: bit 31 is set. -/
def bit31 (w : Nat) : Bool := w / 2147483648 % 2 = 1

/-! ## JavaScript values and objects -/

/-- The values `decode` can return. -/
inductive Value
  | undefined
  | text (s : String)
  | number (n : Int)
  | buffer (b : List Byte)
  /-- a plain object: its own enumerable properties in enumeration order -/
  | object (props : List (String × Value))

mutual
/-- Equality of values is decidable. -/
def Value.decEq : (a b : Value) → Decidable (a = b)
  | .undefined, .undefined => isTrue rfl
  | .text s, .text t =>
    if h : s = t then isTrue (by rw [h]) else isFalse (by intro e; cases e; exact h rfl)
  | .number s, .number t =>
    if h : s = t then isTrue (by rw [h]) else isFalse (by intro e; cases e; exact h rfl)
  | .buffer s, .buffer t =>
    if h : s = t then isTrue (by rw [h]) else isFalse (by intro e; cases e; exact h rfl)
  | .object s, .object t =>
    match Value.decEqProps s t with
    | isTrue h => isTrue (by rw [h])
    | isFalse h => isFalse (by intro e; cases e; exact h rfl)
  | .undefined, .text _ | .undefined, .number _ | .undefined, .buffer _ | .undefined, .object _
  | .text _, .undefined | .text _, .number _ | .text _, .buffer _ | .text _, .object _
  | .number _, .undefined | .number _, .text _ | .number _, .buffer _ | .number _, .object _
  | .buffer _, .undefined | .buffer _, .text _ | .buffer _, .number _ | .buffer _, .object _
  | .object _, .undefined | .object _, .text _ | .object _, .number _ | .object _, .buffer _ =>
    isFalse (by intro e; cases e)
/-- Equality of property lists is decidable. -/
def Value.decEqProps : (a b : List (String × Value)) → Decidable (a = b)
  | [], [] => isTrue rfl
  | [], _ :: _ => isFalse (by intro e; cases e)
  | _ :: _, [] => isFalse (by intro e; cases e)
  | (k, v) :: ps, (k2, v2) :: qs =>
    if hk : k = k2 then
      match Value.decEq v v2 with
      | isTrue hv =>
        match Value.decEqProps ps qs with
        | isTrue hp => isTrue (by rw [hk, hv, hp])
        | isFalse hp => isFalse (by intro e; cases e; exact hp rfl)
      | isFalse hv => isFalse (by intro e; cases e; exact hv rfl)
    else isFalse (by intro e; cases e; exact hk rfl)
end

instance : DecidableEq Value := Value.decEq

/-- The own properties of a plain object, in enumeration order (`Object.keys`,
`for in`): array-index keys first, ascending, then the other keys in the order
they were created. -/
abbrev JSObject := List (String × Value)

/-- The number a key denotes when it is an array index: a canonical decimal
numeral (no sign, no leading zero) below `2^32 - 1`. -/
def arrayIndex? (k : String) : Option Nat :=
  let cs := k.data
  let n := cs.foldl (fun a c => 10 * a + (c.toNat - 48)) 0
  if cs ≠ [] ∧ cs.all Char.isDigit ∧ (cs.length = 1 ∨ cs.head? ≠ some '0') ∧ n < 4294967295
  then some n else none

/-- Create the array-index property `k` (index `i`) at its place among the
array-index properties. -/
def insertIndex (i : Nat) (k : String) (v : Value) : JSObject → JSObject
  | [] => [(k, v)]
  | p :: ps =>
    match arrayIndex? p.1 with
    | some j => if j < i then p :: insertIndex i k v ps else (k, v) :: p :: ps
    | none => (k, v) :: p :: ps

/-- `obj[k] = v` on an object created by `{}`, for a `v` that is not an object:
`__proto__` is an accessor of `Object.prototype` whose setter ignores such a
`v`; an existing property keeps its place and takes the new value; a new
property is created. -/
def objSet (o : JSObject) (k : String) (v : Value) : JSObject :=
  if k = "__proto__" then o
  else if o.any (fun p => p.1 = k) then o.map (fun p => if p.1 = k then (k, v) else p)
  else
    match arrayIndex? k with
    | some i => insertIndex i k v o
    | none => o ++ [(k, v)]

/-! ## The protocol table

`lib/gibson.js` reads its constants from `require('./protocol').Protocol`. -/

/-- Modelled from the spec: the size of an inbound frame header, "7 bytes
(`code`(2) + `encoding`(1) + `datalen`(4))"; `Protocol.header_size` of the
`./protocol` module. -/
def header_size : Nat := 7

/-- The remaining constants of the `./protocol` module the client uses; the
client is embedded for an arbitrary table. -/
structure Protocol where
  /-- `Protocol.replies.REPL_VAL` -/
  REPL_VAL : Nat
  /-- `Protocol.replies.REPL_KVAL` -/
  REPL_KVAL : Nat
  /-- `Protocol.encodings.GB_ENC_PLAIN` -/
  GB_ENC_PLAIN : Nat
  /-- `Protocol.encodings.GB_ENC_NUMBER` -/
  GB_ENC_NUMBER : Nat
  /-- `Protocol.isErrorCode(code)` -/
  isErrorCode : Nat → Bool
  /-- `Protocol.errors[code]`; `none` is `undefined` -/
  errors : Nat → Option String

/-! ## `Client.prototype.decode` -/

/-- What a call of `decode` does: it returns a value or throws, and it may have
delivered `'error'` events to the listeners of the client. -/
structure Decoded where
  /-- the returned value, or the exception thrown -/
  result : Except JSError Value
  /-- the arguments of the `'error'` events delivered, oldest first -/
  emitted : List String
  deriving DecidableEq

/-- `this.emit('error', msg)` followed by falling off the end of the function:
with a listener registered the event is delivered and `undefined` is returned;
without one `emit` throws. -/
def emitError (listening : Bool) (msg : String) : Decoded :=
  if listening then ⟨.ok .undefined, [msg]⟩ else ⟨.error (.unhandledError msg), []⟩

/-- The branch `code === Protocol.replies.REPL_VAL` of `decode`. -/
def decodeVal (P : Protocol) (listening : Bool) (encoding size : Nat) (data : List Byte) :
    Decoded :=
  if encoding = P.GB_ENC_PLAIN then ⟨.ok (.text (bufToString data)), []⟩
  else if encoding = P.GB_ENC_NUMBER then
    let buffer := data
    if size = 8 then
      match readUInt32LE buffer 0 with
      | .error e => ⟨.error e, []⟩
      | .ok word0 =>
        match readUInt32LE buffer 4 with
        | .error e => ⟨.error e, []⟩
        | .ok word1 =>
          if ¬ bit31 word1 then
            ⟨.ok (.number (jsAdd word0 (jsMul 4294967296 word1))), []⟩
          else
            ⟨.ok (.number (- jsAdd (jsAdd (jsMul (compl32 word1) 4294967296) (compl32 word0)) 1)),
              []⟩
    else
      match readInt32LE buffer 0 with
      | .error e => ⟨.error e, []⟩
      | .ok n => ⟨.ok (.number n), []⟩
  else emitError listening "Unknown encoding"

/-- The `for` loop of the branch `code === Protocol.replies.REPL_KVAL`: `n` is
`count - i`, the number of entries still to read; the call
`this.decode(Protocol.replies.REPL_VAL, enc, vsize, v)` enters the `REPL_VAL`
branch, `decodeVal`. -/
def decodeEntries (P : Protocol) (listening : Bool) (buffer : List Byte) :
    Nat → Nat → JSObject → List String → Decoded
  | 0, _, obj, emitted => ⟨.ok (.object obj), emitted⟩
  | n + 1, offset, obj, emitted =>
    match readUInt32LE buffer offset with
    | .error e => ⟨.error e, emitted⟩
    | .ok klen =>
      let offset := offset + 4
      let key := bufToStringRange buffer offset (offset + klen)
      let offset := offset + klen
      match readUInt8 buffer offset with
      | .error e => ⟨.error e, emitted⟩
      | .ok enc =>
        let offset := offset + 1
        match readUInt32LE buffer offset with
        | .error e => ⟨.error e, emitted⟩
        | .ok vsize =>
          let offset := offset + 4
          let v := bufCopy buffer (newBuffer vsize) 0 offset (offset + vsize)
          let offset := offset + vsize
          let d := decodeVal P listening enc vsize v
          match d.result with
          | .error e => ⟨.error e, emitted ++ d.emitted⟩
          | .ok val => decodeEntries P listening buffer n offset (objSet obj key val)
                        (emitted ++ d.emitted)

/-- `Client.prototype.decode(code, encoding, size, data)`; `listening` tells
whether the client has an `'error'` listener. -/
def decode (P : Protocol) (listening : Bool) (code encoding size : Nat) (data : List Byte) :
    Decoded :=
  if code = P.REPL_VAL then decodeVal P listening encoding size data
  else if code = P.REPL_KVAL then
    let buffer := data
    match readUInt32LE buffer 0 with
    | .error e => ⟨.error e, []⟩
    | .ok count => decodeEntries P listening buffer count 4 [] []
  else ⟨.ok (.buffer data), []⟩

/-! ## The client -/

/-- An entry of `this.callbacks`: `{ op: opcode, cb: callback }`.  A callback
function is identified by a number; `none` is `undefined`. -/
structure Pending where
  op : Nat
  cb : Option Nat
  deriving DecidableEq

/-- One invocation `callback.cb(err, data)`: `err` is `none` for `undefined`
and `some m` for `new Error(m)`, `m` being `Protocol.errors[code]`.  Callbacks
and listeners are code of the caller: their invocations are recorded, what they
do is not part of the client. -/
structure Call where
  cb : Nat
  err : Option (Option String)
  data : Value
  deriving DecidableEq

/-- The state of a `Client` and the trace of what it did.  `conn` is `none`
for `null`, otherwise the packets written to the socket, oldest first;
`bufferConcat` tells whether `Buffer.concat` is defined; `errorListener` whether
an `'error'` listener is registered on the client; `emitted` and `calls` record
the `'error'` events delivered and the callbacks invoked, oldest first. -/
structure Client where
  buffer : Option (List Byte)
  conn : Option (List (List Byte))
  callbacks : List Pending
  bufferConcat : Bool
  errorListener : Bool
  emitted : List String
  calls : List Call
  deriving DecidableEq

/-- The state `new Client(...)` builds (`buffer = null`, `conn = null`,
`callbacks = []`), in a given environment. -/
def Client.new (bufferConcat errorListener : Bool) : Client :=
  ⟨none, none, [], bufferConcat, errorListener, [], []⟩

/-- `Client.prototype.append_chunk(chunk)`. -/
def append_chunk (c : Client) (chunk : List Byte) : Client :=
  match c.buffer with
  | none => { c with buffer := some chunk }
  | some buffer =>
    if c.bufferConcat then { c with buffer := some (bufConcat buffer chunk) }
    else
      let tmp := newBuffer (buffer.length + chunk.length)
      let tmp := bufCopy buffer tmp 0 0 buffer.length
      let tmp := bufCopy chunk tmp buffer.length 0 chunk.length
      { c with buffer := some tmp }

/-- How one pass through the body of the `while` loop ends. -/
inductive Step
  /-- the loop is left: its condition is false, or `break` -/
  | exit (c : Client)
  /-- the loop condition is tested again: end of the body, or `continue` -/
  | again (c : Client)
  /-- an exception leaves the function -/
  | throw (e : JSError) (c : Client)
  deriving DecidableEq

/-- One test of the loop condition of `handle_incoming_data` followed by one
execution of the loop body. -/
def iteration (P : Protocol) (c : Client) : Step :=
  match c.buffer with
  | none => .throw .typeError c
  | some buffer =>
    let bsize := buffer.length
    if ¬ (bsize > 0) then .exit c
    else if bsize < header_size then .exit c
    else
      match readUInt16LE buffer 0 with
      | .error e => .throw e c
      | .ok code =>
        match readUInt8 buffer 2 with
        | .error e => .throw e c
        | .ok encoding =>
          match readUInt32LE buffer 3 with
          | .error e => .throw e c
          | .ok datalen =>
            let packet_size := header_size + datalen
            let left : Int := (bsize : Int) - (packet_size : Int)
            if left ≥ 0 then
              let data := bufCopy buffer (newBuffer datalen) 0 header_size buffer.length
              let d := decode P c.errorListener code encoding datalen data
              let c := { c with emitted := c.emitted ++ d.emitted }
              match d.result with
              | .error e => .throw e c
              | .ok data =>
                let callback : Option Pending := c.callbacks.head?
                let c := { c with callbacks := c.callbacks.tail }
                let c : Client :=
                  match callback with
                  | some (Pending.mk _ (some cb)) =>
                    let err := if P.isErrorCode code then some (P.errors code) else none
                    { c with calls := c.calls ++ [Call.mk cb err data] }
                  | _ => c
                let c := { c with buffer := some (bufSlice buffer packet_size) }
                if (bufSlice buffer packet_size).length ≤ 0 then .exit c else .again c
            else .again c

/-- How a call of a client method ends. -/
inductive Outcome
  | returned (c : Client)
  | threw (e : JSError) (c : Client)
  deriving DecidableEq

/-- `Client.prototype.handle_incoming_data()`, run for at most `fuel` tests of
the loop condition; `none` means the loop is still running after them. -/
def handle_incoming_data (P : Protocol) : Nat → Client → Option Outcome
  | 0, _ => none
  | fuel + 1, c =>
    match iteration P c with
    | .exit c => some (.returned c)
    | .again c => handle_incoming_data P fuel c
    | .throw e c => some (.threw e c)

/-- `Client.prototype.query(opcode, payload, callback)`. -/
def query (c : Client) (opcode : Nat) (payload : String) (callback : Option Nat) : Outcome :=
  let c := { c with callbacks := c.callbacks ++ [⟨opcode, callback⟩] }
  let psize := byteLength payload
  let packet := newBuffer (4 + 2 + psize)
  match writeUInt32LE packet (2 + psize) 0 with
  | .error e => .threw e c
  | .ok packet =>
    match writeUInt16LE packet opcode 4 with
    | .error e => .threw e c
    | .ok packet =>
      let packet := bufWrite packet payload 6 psize
      match c.conn with
      | none => .threw .typeError c
      | some written => .returned { c with conn := some (written ++ [packet]) }

/-- The handler of the socket's `'data'` event: `append_chunk(chunk)` then
`handle_incoming_data()`. -/
def onData (P : Protocol) (fuel : Nat) (c : Client) (chunk : List Byte) : Option Outcome :=
  handle_incoming_data P fuel (append_chunk c chunk)

/-- A protocol table to run the client on concrete inputs. -/
def sampleProtocol : Protocol where
  REPL_VAL := 6
  REPL_KVAL := 7
  GB_ENC_PLAIN := 0
  GB_ENC_NUMBER := 2
  isErrorCode := fun code => decide (code < 5)
  errors := fun code =>
    if code = 0 then some "Generic error" else if code = 1 then some "Not found" else none

/-! ## Wire formats -/

/-- The two octets of a little-endian unsigned 16-bit integer. -/
def u16le (n : Nat) : List Byte := [Fin.ofNat (n % 256), Fin.ofNat (n / 256 % 256)]

/-- The four octets of a little-endian unsigned 32-bit integer. -/
def u32le (n : Nat) : List Byte :=
  [Fin.ofNat (n % 256), Fin.ofNat (n / 256 % 256), Fin.ofNat (n / 65536 % 256),
   Fin.ofNat (n / 16777216 % 256)]

/-- The four octets of the little-endian two's-complement form of a 32-bit integer. -/
def i32le (v : Int) : List Byte := u32le (v % 4294967296).toNat

/-- The eight octets of the little-endian two's-complement form of a 64-bit integer. -/
def i64le (v : Int) : List Byte :=
  u32le ((v % 18446744073709551616).toNat % 4294967296) ++
  u32le ((v % 18446744073709551616).toNat / 4294967296)

/-- An inbound frame: response code, encoding octet and payload. -/
structure Frame where
  code : Nat
  encoding : Nat
  payload : List Byte
  deriving DecidableEq

/-- A frame whose fields fit their header fields. -/
def Frame.Valid (f : Frame) : Prop :=
  f.code < 65536 ∧ f.encoding < 256 ∧ f.payload.length < 4294967296

instance (f : Frame) : Decidable f.Valid := by unfold Frame.Valid; exact inferInstance

/-- The octets of a frame on the wire: the 7-octet header, then the payload. -/
def Frame.bytes (f : Frame) : List Byte :=
  u16le f.code ++ [Fin.ofNat f.encoding] ++ u32le f.payload.length ++ f.payload

/-- One entry of a map payload: key octets, encoding octet, value octets. -/
structure Entry where
  key : List Byte
  enc : Nat
  value : List Byte
  deriving DecidableEq

/-- An entry whose fields fit their length and encoding fields. -/
def Entry.Valid (e : Entry) : Prop :=
  e.key.length < 4294967296 ∧ e.enc < 256 ∧ e.value.length < 4294967296

instance (e : Entry) : Decidable e.Valid := by unfold Entry.Valid; exact inferInstance

/-- The octets of a map entry: u32 key length, key octets, one encoding octet,
u32 value size, value octets. -/
def Entry.bytes (e : Entry) : List Byte :=
  u32le e.key.length ++ e.key ++ [Fin.ofNat e.enc] ++ u32le e.value.length ++ e.value

/-- A well-formed map payload: the u32 count of entries, then the entries. -/
def mapPayload (es : List Entry) : List Byte :=
  u32le es.length ++ es.flatMap Entry.bytes

/-! ## Definitions used to state the properties -/

/-- The `err` argument a callback receives for a frame with response code `code`. -/
def errorArg (P : Protocol) (code : Nat) : Option (Option String) :=
  if P.isErrorCode code then some (P.errors code) else none

/-- The client after a complete frame with response code `code` was decoded to
`d` with value `v` and consumed, `rest` being the octets that follow it. -/
def afterFrame (P : Protocol) (c : Client) (code : Nat) (d : Decoded) (v : Value)
    (rest : List Byte) : Client :=
  { c with
    buffer := some rest
    callbacks := c.callbacks.tail
    emitted := c.emitted ++ d.emitted
    calls := c.calls ++
      (match c.callbacks.head? with
       | some (Pending.mk _ (some cb)) =>
         [Call.mk cb (errorArg P code) v]
       | _ => []) }

/-- A request as `query` receives it, with a callback function. -/
structure Request where
  op : Nat
  payload : String
  cb : Nat

/-- The client a call leaves behind, however the call ended. -/
def Outcome.client : Outcome → Client
  | .returned c => c
  | .threw _ c => c

/-- The requests queued one after the other by `query`. -/
def queryAll (c : Client) (reqs : List Request) : Client :=
  reqs.foldl (fun c r => (query c r.op r.payload (some r.cb)).client) c

/-- `obj[k]` for an own property of a plain object; `none` when there is none. -/
def objGet (o : JSObject) (k : String) : Option Value :=
  (o.find? (fun p => p.1 = k)).map Prod.snd

/-- The value of the last pair with key `k` in a list of key/value pairs. -/
def lastValue : List (String × Value) → String → Option Value
  | [], _ => none
  | kv :: kvs, k =>
    match lastValue kvs k with
    | some v => some v
    | none => if kv.1 = k then some kv.2 else none

/-- Where a map payload stops short, after its complete entries. -/
inductive Cut
  /-- fewer than 4 octets where a key length is expected -/
  | atKeyLength (tail : List Byte)
  /-- a key length `klen`, then at most `klen` octets and no encoding octet -/
  | atKey (klen : Nat) (part : List Byte)
  /-- a key and its encoding octet, then fewer than 4 octets where the value
  size is expected -/
  | atValueSize (key : List Byte) (enc : Nat) (tail : List Byte)
  /-- a key, its encoding octet and a value size `vsize`, then fewer than
  `vsize` octets -/
  | atValue (key : List Byte) (enc : Nat) (vsize : Nat) (part : List Byte)

/-- The fields of a cut fit their length fields and the cut is a cut. -/
def Cut.Valid : Cut → Prop
  | .atKeyLength tail => tail.length < 4
  | .atKey klen part => klen < 4294967296 ∧ part.length ≤ klen
  | .atValueSize key enc tail => key.length < 4294967296 ∧ enc < 256 ∧ tail.length < 4
  | .atValue key enc vsize part =>
    key.length < 4294967296 ∧ enc < 256 ∧ vsize < 4294967296 ∧ part.length < vsize

instance (cut : Cut) : Decidable cut.Valid := by
  cases cut <;> unfold Cut.Valid <;> exact inferInstance

/-- The octets of a cut. -/
def Cut.bytes : Cut → List Byte
  | .atKeyLength tail => tail
  | .atKey klen part => u32le klen ++ part
  | .atValueSize key enc tail => u32le key.length ++ key ++ [Fin.ofNat enc] ++ tail
  | .atValue key enc vsize part =>
    u32le key.length ++ key ++ [Fin.ofNat enc] ++ u32le vsize ++ part

/-- A map payload that declares `count` entries and holds the complete entries
`es` followed by a cut. -/
def cutPayload (count : Nat) (es : List Entry) (cut : Cut) : List Byte :=
  u32le count ++ (es.flatMap Entry.bytes ++ cut.bytes)

/-- The map as the specification describes its entries: entry by entry, in
payload order, the value is what the scalar path
`decode(REPL_VAL, enc, vsize, value octets)` returns for the entry's own encoding
octet and value size, and it is assigned to the entry's key; an exception of
the scalar path ends the decoding, and the `'error'` events accumulate. -/
def assignEntries (P : Protocol) (listening : Bool) :
    List Entry → JSObject → List String → Decoded
  | [], obj, emitted => ⟨.ok (.object obj), emitted⟩
  | e :: es, obj, emitted =>
    let d := decode P listening P.REPL_VAL e.enc e.value.length e.value
    match d.result with
    | .error err => ⟨.error err, emitted ++ d.emitted⟩
    | .ok val =>
      assignEntries P listening es (objSet obj (bufToString e.key) val) (emitted ++ d.emitted)

/-! ## Properties -/

/-! ### Framing: one pass of the loop of `handle_incoming_data` -/

theorem byteAt_lt (b : List Byte) (i : Nat) : byteAt b i < 256 := (b.getD i 0).isLt

theorem iteration_incomplete (P : Protocol) (c : Client) (buf : List Byte) (datalen : Nat)
    (hb : c.buffer = some buf) (h7 : 7 ≤ buf.length)
    (hd : readUInt32LE buf 3 = .ok datalen) (hlt : buf.length < 7 + datalen) :
    iteration P c = .again c := by
  have h16 : readUInt16LE buf 0 = .ok (byteAt buf 0 + 256 * byteAt buf 1) := by
    simp [readUInt16LE]; omega
  have h8 : readUInt8 buf 2 = .ok (byteAt buf 2) := by
    simp [readUInt8]; omega
  unfold iteration
  simp only [hb, h16, h8, hd, header_size]
  have h1 : ¬ ¬ (buf.length > 0) := by omega
  have h2 : ¬ (buf.length < 7) := by omega
  have h3 : ¬ ((buf.length : Int) - ((7 + datalen : Nat) : Int) ≥ 0) := by omega
  simp only [h1, h2, h3, if_false]

theorem handle_incoming_data_incomplete (P : Protocol) (c : Client) (buf : List Byte)
    (datalen : Nat) (hb : c.buffer = some buf) (h7 : 7 ≤ buf.length)
    (hd : readUInt32LE buf 3 = .ok datalen) (hlt : buf.length < 7 + datalen) :
    ∀ fuel, handle_incoming_data P fuel c = none := by
  intro fuel
  induction fuel with
  | zero => rfl
  | succ n ih =>
    simp only [handle_incoming_data, iteration_incomplete P c buf datalen hb h7 hd hlt, ih]

theorem bufCopy_payload (buf : List Byte) (n : Nat) (h : 7 + n ≤ buf.length) :
    bufCopy buf (newBuffer n) 0 7 buf.length = (buf.drop 7).take n := by
  have hl : ((buf.drop 7).take n).length = n := by
    simp [List.length_take, List.length_drop]; omega
  simp [bufCopy, newBuffer, hl]

theorem iteration_complete (P : Protocol) (c : Client) (buf : List Byte)
    (hb : c.buffer = some buf) (h7 : 7 ≤ buf.length)
    (hlen : 7 + (byteAt buf 3 + 256 * byteAt buf 4 + 65536 * byteAt buf 5
              + 16777216 * byteAt buf 6) ≤ buf.length) :
    iteration P c =
      (let code := byteAt buf 0 + 256 * byteAt buf 1
       let datalen := byteAt buf 3 + 256 * byteAt buf 4 + 65536 * byteAt buf 5
              + 16777216 * byteAt buf 6
       let d := decode P c.errorListener code (byteAt buf 2) datalen ((buf.drop 7).take datalen)
       match d.result with
       | .error e => .throw e { c with emitted := c.emitted ++ d.emitted }
       | .ok v =>
         if buf.length ≤ 7 + datalen then .exit (afterFrame P c code d v (buf.drop (7 + datalen)))
         else .again (afterFrame P c code d v (buf.drop (7 + datalen)))) := by
  have h16 : readUInt16LE buf 0 = .ok (byteAt buf 0 + 256 * byteAt buf 1) := by
    simp [readUInt16LE]; omega
  have h8 : readUInt8 buf 2 = .ok (byteAt buf 2) := by
    simp [readUInt8]; omega
  have h32 : readUInt32LE buf 3 = .ok (byteAt buf 3 + 256 * byteAt buf 4 + 65536 * byteAt buf 5
              + 16777216 * byteAt buf 6) := by
    simp [readUInt32LE]; omega
  unfold iteration
  simp only [hb, h16, h8, h32, header_size]
  have h1 : ¬ ¬ (buf.length > 0) := by omega
  have h2 : ¬ (buf.length < 7) := by omega
  have h3 : ((buf.length : Int) - ((7 + (byteAt buf 3 + 256 * byteAt buf 4 + 65536 * byteAt buf 5
              + 16777216 * byteAt buf 6) : Nat) : Int) ≥ 0) := by omega
  simp only [h1, h2, h3, if_false, if_true, bufCopy_payload buf _ hlen]
  cases hd : (decode P c.errorListener (byteAt buf 0 + 256 * byteAt buf 1) (byteAt buf 2)
      (byteAt buf 3 + 256 * byteAt buf 4 + 65536 * byteAt buf 5 + 16777216 * byteAt buf 6)
      ((buf.drop 7).take (byteAt buf 3 + 256 * byteAt buf 4 + 65536 * byteAt buf 5
        + 16777216 * byteAt buf 6))).result with
  | error e => simp only []
  | ok v =>
    simp only [bufSlice, List.length_drop, afterFrame]
    have : (buf.length - (7 + (byteAt buf 3 + 256 * byteAt buf 4 + 65536 * byteAt buf 5
              + 16777216 * byteAt buf 6)) ≤ 0) ↔ buf.length ≤ 7 + (byteAt buf 3 + 256 * byteAt buf 4 + 65536 * byteAt buf 5 + 16777216 * byteAt buf 6) := by omega
    simp only [this]
    cases hcb : c.callbacks.head? with
    | none => simp
    | some p =>
      obtain ⟨op, cb⟩ := p
      cases cb <;> simp [errorArg]

theorem val_ofNat (x : Nat) : ((Fin.ofNat x : Byte) : Nat) = x % 256 := rfl

theorem Frame.bytes_length (f : Frame) : f.bytes.length = 7 + f.payload.length := by
  simp [Frame.bytes, u16le, u32le]; omega

theorem Frame.header (f : Frame) (hv : f.Valid) (rest : List Byte) :
    byteAt (f.bytes ++ rest) 0 + 256 * byteAt (f.bytes ++ rest) 1 = f.code ∧
    byteAt (f.bytes ++ rest) 2 = f.encoding ∧
    byteAt (f.bytes ++ rest) 3 + 256 * byteAt (f.bytes ++ rest) 4
      + 65536 * byteAt (f.bytes ++ rest) 5 + 16777216 * byteAt (f.bytes ++ rest) 6
      = f.payload.length := by
  obtain ⟨h1, h2, h3⟩ := hv
  simp only [Frame.bytes, u16le, u32le, byteAt, List.cons_append, List.nil_append,
    List.getD_cons_zero, List.getD_cons_succ, val_ofNat, List.append_assoc]
  refine ⟨by omega, by omega, by omega⟩

theorem Frame.drop_header (f : Frame) (rest : List Byte) :
    (f.bytes ++ rest).drop 7 = f.payload ++ rest := by
  simp [Frame.bytes, u16le, u32le]

theorem iteration_frame (P : Protocol) (c : Client) (f : Frame) (rest : List Byte)
    (hv : f.Valid) (hb : c.buffer = some (f.bytes ++ rest)) :
    iteration P c =
      (match (decode P c.errorListener f.code f.encoding f.payload.length f.payload).result with
       | .error e => .throw e { c with emitted := c.emitted ++
            (decode P c.errorListener f.code f.encoding f.payload.length f.payload).emitted }
       | .ok v =>
         if rest = [] then
           .exit (afterFrame P c f.code
             (decode P c.errorListener f.code f.encoding f.payload.length f.payload) v rest)
         else
           .again (afterFrame P c f.code
             (decode P c.errorListener f.code f.encoding f.payload.length f.payload) v rest)) := by
  obtain ⟨h1, h2, h3⟩ := Frame.header f hv rest
  have hl : (f.bytes ++ rest).length = 7 + f.payload.length + rest.length := by
    simp [Frame.bytes_length]
  rw [iteration_complete P c (f.bytes ++ rest) hb (by omega) (by rw [h3]; omega)]
  simp only [h1, h2, h3]
  have hd : ((f.bytes ++ rest).drop 7).take f.payload.length = f.payload := by
    rw [Frame.drop_header]; simp
  have hr : (f.bytes ++ rest).drop (7 + f.payload.length) = rest := by
    rw [← List.drop_drop, Frame.drop_header]; simp
  rw [hd, hr, hl]
  have : (7 + f.payload.length + rest.length ≤ 7 + f.payload.length) ↔ rest = [] := by
    rw [← List.length_eq_zero]; omega
  simp only [this]

/-! ### Pipelining -/

theorem query_client (c : Client) (op : Nat) (payload : String) (cb : Option Nat) :
    (query c op payload cb).client.callbacks = c.callbacks ++ [⟨op, cb⟩] ∧
    (query c op payload cb).client.buffer = c.buffer ∧
    (query c op payload cb).client.calls = c.calls ∧
    (query c op payload cb).client.emitted = c.emitted ∧
    (query c op payload cb).client.errorListener = c.errorListener := by
  unfold query
  simp only []
  split
  · simp [Outcome.client]
  · split
    · simp [Outcome.client]
    · split <;> simp [Outcome.client]

theorem queryAll_client (reqs : List Request) : ∀ (c : Client),
    (queryAll c reqs).callbacks = c.callbacks ++ reqs.map (fun r => ⟨r.op, some r.cb⟩) ∧
    (queryAll c reqs).buffer = c.buffer ∧
    (queryAll c reqs).calls = c.calls ∧
    (queryAll c reqs).emitted = c.emitted ∧
    (queryAll c reqs).errorListener = c.errorListener := by
  induction reqs with
  | nil => intro c; simp [queryAll]
  | cons r rs ih =>
    intro c
    obtain ⟨h1, h2, h3, h4, h5⟩ := ih (query c r.op r.payload (some r.cb)).client
    obtain ⟨q1, q2, q3, q4, q5⟩ := query_client c r.op r.payload (some r.cb)
    simp only [queryAll, List.foldl_cons] at h1 h2 h3 h4 h5 ⊢
    refine ⟨?_, ?_, ?_, ?_, ?_⟩
    · rw [h1, q1]; simp
    · rw [h2, q2]
    · rw [h3, q3]
    · rw [h4, q4]
    · rw [h5, q5]

theorem flatMap_bytes_eq_nil (frames : List Frame) (h : frames.flatMap Frame.bytes = []) :
    frames = [] := by
  cases frames with
  | nil => rfl
  | cons f fs =>
    have := congrArg List.length h
    simp [Frame.bytes_length] at this

theorem handle_frames (P : Protocol) (l : Bool) : ∀ (frames : List Frame) (reqs : List Request)
    (vals : List Value) (c : Client) (more : List Pending),
    (∀ f ∈ frames, f.Valid) → reqs.length = frames.length →
    List.Forall₂ (fun f v =>
      (decode P l f.code f.encoding f.payload.length f.payload).result = .ok v) frames vals →
    c.errorListener = l →
    c.buffer = some (frames.flatMap Frame.bytes) →
    c.callbacks = reqs.map (fun r => ⟨r.op, some r.cb⟩) ++ more →
    ∀ fuel, frames.length < fuel →
    ∃ c', handle_incoming_data P fuel c = some (.returned c') ∧
      c'.calls = c.calls ++ (reqs.zip (frames.zip vals)).map
        (fun x => Call.mk x.1.cb (errorArg P x.2.1.code) x.2.2) ∧
      c'.callbacks = more ∧ c'.buffer = some [] := by
  intro frames
  induction frames with
  | nil =>
    intro reqs vals c more _ hn _ _ hb hc fuel hf
    cases reqs with
    | cons r rs => simp at hn
    | nil =>
      obtain ⟨k, rfl⟩ : ∃ k, fuel = k + 1 := ⟨fuel - 1, by omega⟩
      refine ⟨c, ?_, by simp, by simpa using hc, by simpa using hb⟩
      simp only [handle_incoming_data]
      have : iteration P c = .exit c := by
        unfold iteration
        simp at hb
        simp [hb]
      rw [this]
  | cons f fs ih =>
    intro reqs vals c more hv hn hdec hl hb hc fuel hf
    cases reqs with
    | nil => simp at hn
    | cons r rs =>
      cases hdec with
      | cons hd htl =>
        rename_i v vs
        obtain ⟨k, rfl⟩ : ∃ k, fuel = k + 1 := ⟨fuel - 1, by omega⟩
        have hvf : f.Valid := hv f (List.mem_cons_self _ _)
        have hb' : c.buffer = some (f.bytes ++ fs.flatMap Frame.bytes) := by
          simpa using hb
        have hit := iteration_frame P c f (fs.flatMap Frame.bytes) hvf hb'
        rw [hl, hd] at hit
        simp only [] at hit
        have hcalls : (afterFrame P c f.code
            (decode P l f.code f.encoding f.payload.length f.payload) v
            (fs.flatMap Frame.bytes)).calls = c.calls ++ [Call.mk r.cb (errorArg P f.code) v] := by
          simp [afterFrame, hc, errorArg]
        have hcbs : (afterFrame P c f.code
            (decode P l f.code f.encoding f.payload.length f.payload) v
            (fs.flatMap Frame.bytes)).callbacks = rs.map (fun r => ⟨r.op, some r.cb⟩) ++ more := by
          simp [afterFrame, hc]
        obtain ⟨c', h1, h2, h3, h4⟩ := ih rs vs (afterFrame P c f.code
            (decode P l f.code f.encoding f.payload.length f.payload) v
            (fs.flatMap Frame.bytes)) more (fun g hg => hv g (List.mem_cons_of_mem _ hg))
            (by simpa using hn) htl (by simp [afterFrame, hl]) (by simp [afterFrame]) hcbs
            k (by simp at hf; omega)
        by_cases hrest : fs.flatMap Frame.bytes = []
        · have hfs := flatMap_bytes_eq_nil fs hrest
          subst hfs
          cases rs with
          | cons r2 rs2 => simp at hn
          | nil =>
            cases htl
            refine ⟨afterFrame P c f.code
              (decode P l f.code f.encoding f.payload.length f.payload) v [], ?_, ?_, ?_, ?_⟩
            · simp only [handle_incoming_data, hit]
              simp
            · simpa using hcalls
            · simpa using hcbs
            · simp [afterFrame]
        · refine ⟨c', ?_, ?_, h3, h4⟩
          · simp only [handle_incoming_data, hit, hrest, if_false]
            exact h1
          · rw [h2, hcalls]; simp
      

/-! ### C1 – C4 -/

/-- C1 (code_bug): feeding the one-frame byte sequence `06 00 00 01 00 00 00 68`
as the two chunks `06 00 00 01 00 00 00` and `68` never gets past the first
chunk — `handle_incoming_data` does not return for any amount of fuel — while
feeding it whole returns after one pass, with the frame delivered to the queued
callback and an empty residual buffer. -/
theorem C1_split_frame_never_returns :
    (∀ fuel, onData sampleProtocol fuel
        { Client.new true true with callbacks := [⟨1, some 10⟩] } [6, 0, 0, 1, 0, 0, 0] = none) ∧
    onData sampleProtocol 1
        { Client.new true true with callbacks := [⟨1, some 10⟩] } [6, 0, 0, 1, 0, 0, 0, 104]
      = some (.returned { Client.new true true with
          buffer := some [], calls := [⟨10, none, .text "h"⟩] }) := by
  refine ⟨fun fuel => ?_, by decide⟩
  exact handle_incoming_data_incomplete sampleProtocol _ [6, 0, 0, 1, 0, 0, 0] 1 rfl
    (by decide) (by decide) (by decide) fuel

/-- C2 (code_bug): on a buffer of at least 7 octets whose header declares more
payload octets than are buffered after the header, `handle_incoming_data` does
not stop: the pass through the loop body ends in `continue` with the client
unchanged, so the call returns for no amount of fuel. -/
theorem C2_incomplete_frame_never_returns (P : Protocol) (c : Client) (buf : List Byte)
    (hb : c.buffer = some buf) (h7 : header_size ≤ buf.length)
    (hlt : buf.length - header_size < byteAt buf 3 + 256 * byteAt buf 4 + 65536 * byteAt buf 5
              + 16777216 * byteAt buf 6) :
    iteration P c = .again c ∧ ∀ fuel, handle_incoming_data P fuel c = none := by
  have h7' : 7 ≤ buf.length := h7
  have hd : readUInt32LE buf 3 = .ok (byteAt buf 3 + 256 * byteAt buf 4 + 65536 * byteAt buf 5
              + 16777216 * byteAt buf 6) := by
    simp [readUInt32LE]; omega
  have hlt' : buf.length < 7 + (byteAt buf 3 + 256 * byteAt buf 4 + 65536 * byteAt buf 5
              + 16777216 * byteAt buf 6) := by
    simp only [header_size] at hlt; omega
  exact ⟨iteration_incomplete P c buf _ hb h7' hd hlt',
    handle_incoming_data_incomplete P c buf _ hb h7' hd hlt'⟩

/-- Witness of C2: a 7-octet buffer declaring one payload octet. -/
theorem C2_incomplete_frame_never_returns_witness :
    iteration sampleProtocol { Client.new true true with buffer := some [6, 0, 0, 1, 0, 0, 0] }
        = .again { Client.new true true with buffer := some [6, 0, 0, 1, 0, 0, 0] } ∧
    ∀ fuel, handle_incoming_data sampleProtocol fuel
        { Client.new true true with buffer := some [6, 0, 0, 1, 0, 0, 0] } = none :=
  C2_incomplete_frame_never_returns sampleProtocol
    { Client.new true true with buffer := some [6, 0, 0, 1, 0, 0, 0] } [6, 0, 0, 1, 0, 0, 0]
    rfl (by decide) (by decide)

/-- C3 (counterexample): the buffer `06 00 02 00 00 00 00` begins with a complete
frame (`REPL_VAL`, `GB_ENC_NUMBER`, no payload); `decode` throws on it and the
pass removes nothing from the buffer. -/
theorem C3_counterexample :
    iteration sampleProtocol { Client.new true true with buffer := some [6, 0, 2, 0, 0, 0, 0] }
      = .throw .rangeError
          { Client.new true true with buffer := some [6, 0, 2, 0, 0, 0, 0] } := by
  decide

/-- C3 (amended): on a buffer that begins with a complete frame, one pass reads
`code` as the little-endian u16 at offset 0, `encoding` as the octet at offset 2
and `datalen` as the little-endian u32 at offset 3, and passes to `decode`
exactly the `datalen` octets at offsets 7 .. 7+datalen-1; when `decode` returns,
the pass removes exactly `7 + datalen` octets from the front of the buffer and
leaves the following octets unchanged; when `decode` throws, the exception
leaves the function and the buffer is unchanged. -/
theorem C3_complete_frame_consumed (P : Protocol) (c : Client) (buf : List Byte)
    (hb : c.buffer = some buf) (h7 : header_size ≤ buf.length)
    (hlen : header_size + (byteAt buf 3 + 256 * byteAt buf 4 + 65536 * byteAt buf 5
              + 16777216 * byteAt buf 6) ≤ buf.length) :
    iteration P c =
      (let code := byteAt buf 0 + 256 * byteAt buf 1
       let encoding := byteAt buf 2
       let datalen := byteAt buf 3 + 256 * byteAt buf 4 + 65536 * byteAt buf 5
                        + 16777216 * byteAt buf 6
       let d := decode P c.errorListener code encoding datalen
                  ((buf.drop header_size).take datalen)
       match d.result with
       | .error e => Step.throw e { c with buffer := some buf, emitted := c.emitted ++ d.emitted }
       | .ok v =>
         (if buf.length ≤ header_size + datalen then Step.exit else Step.again)
           { c with
             buffer := some (buf.drop (header_size + datalen))
             callbacks := c.callbacks.tail
             emitted := c.emitted ++ d.emitted
             calls := c.calls ++
               (match c.callbacks.head? with
                | some (Pending.mk _ (some cb)) => [Call.mk cb (errorArg P code) v]
                | _ => []) }) := by
  rw [iteration_complete P c buf hb h7 hlen]
  simp only [header_size]
  cases (decode P c.errorListener (byteAt buf 0 + 256 * byteAt buf 1) (byteAt buf 2)
      (byteAt buf 3 + 256 * byteAt buf 4 + 65536 * byteAt buf 5 + 16777216 * byteAt buf 6)
      ((buf.drop 7).take (byteAt buf 3 + 256 * byteAt buf 4 + 65536 * byteAt buf 5
        + 16777216 * byteAt buf 6))).result with
  | error e => simp only [← hb]
  | ok v =>
    simp only [afterFrame]
    split <;> rfl

/-- Witness of C3 (amended): a text frame `hi` followed by one more octet; the
pass delivers the text, keeps the octet that follows and goes on. -/
theorem C3_complete_frame_consumed_witness :
    iteration sampleProtocol
        { Client.new true true with
          buffer := some [6, 0, 0, 2, 0, 0, 0, 104, 105, 9], callbacks := [⟨1, some 10⟩] }
      = .again { Client.new true true with
          buffer := some [9], calls := [⟨10, none, .text "hi"⟩] } :=
  (C3_complete_frame_consumed sampleProtocol
    { Client.new true true with
      buffer := some [6, 0, 0, 2, 0, 0, 0, 104, 105, 9], callbacks := [⟨1, some 10⟩] }
    [6, 0, 0, 2, 0, 0, 0, 104, 105, 9] rfl (by decide) (by decide)).trans (by decide)

/-- C4 (counterexample): one request is queued with callback 10 and the buffer
holds the complete reply frame `06 00 02 00 00 00 00` (`REPL_VAL`,
`GB_ENC_NUMBER`, no payload): `decode` throws, the callback is not invoked and
the request stays in the queue. -/
theorem C4_counterexample :
    handle_incoming_data sampleProtocol 2
        { queryAll { Client.new true true with conn := some [] } [⟨1, "a", 10⟩] with
          buffer := some (([⟨6, 2, []⟩] : List Frame).flatMap Frame.bytes) }
      = some (.threw .rangeError
          { Client.new true true with
            conn := some [[3, 0, 0, 0, 1, 0, 97]]
            buffer := some [6, 0, 2, 0, 0, 0, 0]
            callbacks := [⟨1, some 10⟩] }) := by
  decide

/-- C4 (amended): when `n` requests were queued by `query` with callbacks
`cb1 .. cbn` on a client with no request pending, and the buffer holds the `n`
complete reply frames `f1 .. fn` concatenated in that order, each of which
`decode` turns into a value, `handle_incoming_data` returns (`n + 1` tests of
the loop condition suffice) having invoked exactly `cb1 .. cbn` in that order,
`cb_k` with the decoded value of `f_k`, whatever the payload sizes, and the
callback queue is empty afterwards. -/
theorem C4_pipelined_replies_in_order (P : Protocol) (c0 : Client) (reqs : List Request)
    (frames : List Frame) (vals : List Value)
    (h0 : c0.callbacks = []) (hn : reqs.length = frames.length)
    (hv : ∀ f ∈ frames, f.Valid)
    (hdec : List.Forall₂ (fun f v =>
      (decode P c0.errorListener f.code f.encoding f.payload.length f.payload).result = .ok v)
      frames vals) :
    ∀ fuel, frames.length < fuel →
    ∃ c', handle_incoming_data P fuel
        { queryAll c0 reqs with buffer := some (frames.flatMap Frame.bytes) }
          = some (.returned c') ∧
      c'.calls = c0.calls ++ (reqs.zip (frames.zip vals)).map
        (fun x => Call.mk x.1.cb (errorArg P x.2.1.code) x.2.2) ∧
      c'.callbacks = [] := by
  intro fuel hf
  obtain ⟨q1, _, q3, _, q5⟩ := queryAll_client reqs c0
  obtain ⟨c', h1, h2, h3, _⟩ := handle_frames P c0.errorListener frames reqs vals
    { queryAll c0 reqs with buffer := some (frames.flatMap Frame.bytes) } [] hv hn hdec
    q5 rfl (by simp [q1, h0]) fuel hf
  exact ⟨c', h1, by rw [h2]; simp [q3], h3⟩

/-- Witness of C4 (amended): two requests, answered by a text frame and a number frame of
different sizes. -/
theorem C4_pipelined_replies_in_order_witness :
    ∃ c', handle_incoming_data sampleProtocol 3
        { queryAll { Client.new true true with conn := some [] }
            [⟨1, "a", 10⟩, ⟨2, "b", 11⟩] with
          buffer := some (([⟨6, 0, [104, 105]⟩, ⟨6, 2, [255, 255, 255, 255]⟩] :
            List Frame).flatMap Frame.bytes) }
          = some (.returned c') ∧
      c'.calls = [] ++ ((([⟨1, "a", 10⟩, ⟨2, "b", 11⟩] : List Request).zip
          (([⟨6, 0, [104, 105]⟩, ⟨6, 2, [255, 255, 255, 255]⟩] : List Frame).zip
            [.text "hi", .number (-1)])).map
        (fun x => Call.mk x.1.cb (errorArg sampleProtocol x.2.1.code) x.2.2)) ∧
      c'.callbacks = [] :=
  C4_pipelined_replies_in_order sampleProtocol { Client.new true true with conn := some [] }
    [⟨1, "a", 10⟩, ⟨2, "b", 11⟩] [⟨6, 0, [104, 105]⟩, ⟨6, 2, [255, 255, 255, 255]⟩]
    [.text "hi", .number (-1)] rfl rfl (by decide)
    (List.Forall₂.cons (by decide) (List.Forall₂.cons (by decide) List.Forall₂.nil)) 3 (by decide)

/-! ### C5: the packet `query` writes -/

theorem utf8Fit_all : ∀ (cs : List Char) (room : Nat),
    (cs.flatMap utf8EncodeChar).length ≤ room → utf8Fit cs room = cs.flatMap utf8EncodeChar := by
  intro cs
  induction cs with
  | nil => intro room _; rfl
  | cons c cs ih =>
    intro room h
    simp only [List.flatMap_cons, List.length_append] at h
    simp only [utf8Fit, List.flatMap_cons]
    rw [if_pos (by omega), ih _ (by omega)]

theorem u32le_length (n : Nat) : (u32le n).length = 4 := rfl

theorem u16le_length (n : Nat) : (u16le n).length = 2 := rfl

theorem query_packet (c : Client) (opcode : Nat) (payload : String) (callback : Option Nat)
    (written : List (List Byte)) (hc : c.conn = some written) (hop : opcode < 65536)
    (hlen : 2 + byteLength payload < 4294967296) :
    query c opcode payload callback = .returned { c with
      callbacks := c.callbacks ++ [⟨opcode, callback⟩]
      conn := some (written ++
        [u32le (2 + byteLength payload) ++ u16le opcode ++ utf8Encode payload]) } := by
  have hL : (utf8Encode payload).length = byteLength payload := rfl
  have w1 : writeUInt32LE (newBuffer (4 + 2 + byteLength payload)) (2 + byteLength payload) 0
      = .ok (u32le (2 + byteLength payload) ++ newBuffer (2 + byteLength payload)) := by
    unfold writeUInt32LE
    rw [if_pos ⟨hlen, by simp [newBuffer]; omega⟩]
    simp [newBuffer, u32le]
    omega
  have w2 : writeUInt16LE (u32le (2 + byteLength payload) ++ newBuffer (2 + byteLength payload))
      opcode 4 = .ok (u32le (2 + byteLength payload) ++ u16le opcode
        ++ newBuffer (byteLength payload)) := by
    unfold writeUInt16LE
    rw [if_pos ⟨hop, by simp [newBuffer, u32le]⟩]
    simp [newBuffer, u32le, u16le]
  have w3 : bufWrite (u32le (2 + byteLength payload) ++ u16le opcode
        ++ newBuffer (byteLength payload)) payload 6 (byteLength payload)
      = u32le (2 + byteLength payload) ++ u16le opcode ++ utf8Encode payload := by
    unfold bufWrite
    have hroom : min (byteLength payload) ((u32le (2 + byteLength payload) ++ u16le opcode
        ++ newBuffer (byteLength payload)).length - 6) = byteLength payload := by
      simp [newBuffer, u32le, u16le]
    rw [hroom, utf8Fit_all payload.data (byteLength payload) (le_of_eq hL)]
    have hfit : payload.data.flatMap utf8EncodeChar = utf8Encode payload := rfl
    rw [hfit]
    simp [newBuffer, u32le, u16le, hL]
    omega
  unfold query
  simp only [w1, w2, w3, hc]

/-- C5 (confirmed): for an opcode in 0..65535 and a payload string whose UTF-8
form has `L` octets, `query` on a connected client hands to the transport one
packet of exactly `6 + L` octets: the little-endian u32 of `2 + L`, then the
little-endian u16 of the opcode, then the `L` UTF-8 octets of the payload. -/
theorem C5_query_packet_layout (c : Client) (opcode : Nat) (payload : String)
    (callback : Option Nat) (written : List (List Byte)) (hc : c.conn = some written)
    (hop : opcode < 65536) (hlen : 2 + (utf8Encode payload).length < 4294967296) :
    ∃ packet : List Byte,
      query c opcode payload callback = .returned { c with
        callbacks := c.callbacks ++ [⟨opcode, callback⟩]
        conn := some (written ++ [packet]) } ∧
      packet.length = 6 + (utf8Encode payload).length ∧
      packet = u32le (2 + (utf8Encode payload).length) ++ u16le opcode ++ utf8Encode payload := by
  refine ⟨_, query_packet c opcode payload callback written hc hop hlen, ?_, rfl⟩
  simp [u32le, u16le, byteLength]
  omega

/-- Witness of C5: opcode 3 with the payload `aé` (3 octets). -/
theorem C5_query_packet_layout_witness :
    ∃ packet : List Byte,
      query { Client.new true true with conn := some [] } 3 "aé" (some 1) = .returned
        { Client.new true true with
          callbacks := [] ++ [⟨3, some 1⟩]
          conn := some ([] ++ [packet]) } ∧
      packet.length = 6 + (utf8Encode "aé").length ∧
      packet = u32le (2 + (utf8Encode "aé").length) ++ u16le 3 ++ utf8Encode "aé" :=
  C5_query_packet_layout { Client.new true true with conn := some [] } 3 "aé" (some 1) [] rfl
    (by decide) (by decide)

/-! ### C6, C7: numbers -/

theorem roundDoubleNat_exact (n : Nat) (h : n ≤ 9007199254740992) : roundDoubleNat n = n := by
  rcases Nat.lt_or_ge n 9007199254740992 with hlt | hge
  · have he : doubleExp n n = 0 := by
      cases n with
      | zero => rfl
      | succ k => simp [doubleExp, hlt]
    simp [roundDoubleNat, he, Nat.mod_one]
  · have : n = 9007199254740992 := by omega
    subst this
    decide

theorem roundDouble_exact (x : Int) (h1 : -9007199254740992 ≤ x) (h2 : x ≤ 9007199254740992) :
    roundDouble x = x := by
  unfold roundDouble
  split
  · rw [roundDoubleNat_exact _ (by omega)]; omega
  · rw [roundDoubleNat_exact _ (by omega)]; omega

theorem readUInt32LE_u32le (a : Nat) (rest : List Byte) :
    readUInt32LE (u32le a ++ rest) 0 = .ok (a % 4294967296) := by
  simp only [readUInt32LE, u32le, byteAt, List.cons_append, List.nil_append,
    List.getD_cons_zero, List.getD_cons_succ, val_ofNat, List.length_cons]
  rw [if_pos (by omega)]
  congr 1
  omega

theorem readUInt32LE_u32le_4 (a b : Nat) (rest : List Byte) :
    readUInt32LE (u32le a ++ (u32le b ++ rest)) 4 = .ok (b % 4294967296) := by
  simp only [readUInt32LE, u32le, byteAt, List.cons_append, List.nil_append,
    List.getD_cons_zero, List.getD_cons_succ, val_ofNat, List.length_cons]
  rw [if_pos (by omega)]
  congr 1
  omega

theorem decodeVal_int64 (P : Protocol) (l : Bool) (v : Int)
    (hP : P.GB_ENC_PLAIN ≠ P.GB_ENC_NUMBER)
    (h1 : -9007199254740992 ≤ v) (h2 : v ≤ 9007199254740992) :
    decodeVal P l P.GB_ENC_NUMBER 8 (i64le v) = ⟨.ok (.number v), []⟩ := by
  have r0 := readUInt32LE_u32le ((v % 18446744073709551616).toNat % 4294967296)
    (u32le ((v % 18446744073709551616).toNat / 4294967296))
  have r1 := readUInt32LE_u32le_4 ((v % 18446744073709551616).toNat % 4294967296)
    ((v % 18446744073709551616).toNat / 4294967296) []
  simp only [List.append_nil] at r1
  unfold decodeVal
  rw [if_neg (Ne.symm hP), if_pos rfl, if_pos rfl]
  unfold i64le
  simp only [r0, r1]
  rcases Int.lt_or_le v 0 with hneg | hpos
  · have hb : bit31 ((v % 18446744073709551616).toNat / 4294967296 % 4294967296) = true := by
      simp only [bit31, decide_eq_true_eq]; omega
    simp only [hb, not_true_eq_false, if_false]
    congr 2
    simp only [jsAdd, jsMul, compl32]
    have e1 := roundDouble_exact
      (((4294967295 - (v % 18446744073709551616).toNat / 4294967296 % 4294967296 % 4294967296
        : Nat) : Int) * 4294967296) (by omega) (by omega)
    rw [e1]
    have e2 := roundDouble_exact
      (((4294967295 - (v % 18446744073709551616).toNat / 4294967296 % 4294967296 % 4294967296
        : Nat) : Int) * 4294967296 +
       ((4294967295 - (v % 18446744073709551616).toNat % 4294967296 % 4294967296 % 4294967296
        : Nat) : Int)) (by omega) (by omega)
    rw [e2]
    have e3 := roundDouble_exact
      (((4294967295 - (v % 18446744073709551616).toNat / 4294967296 % 4294967296 % 4294967296
        : Nat) : Int) * 4294967296 +
       ((4294967295 - (v % 18446744073709551616).toNat % 4294967296 % 4294967296 % 4294967296
        : Nat) : Int) + 1) (by omega) (by omega)
    rw [e3]
    congr 1
    omega
  · have hb : bit31 ((v % 18446744073709551616).toNat / 4294967296 % 4294967296) = false := by
      simp only [bit31, decide_eq_false_iff_not]; omega
    simp only [hb, Bool.false_eq_true, not_false_eq_true, if_true]
    congr 2
    simp only [jsAdd, jsMul]
    have e1 := roundDouble_exact
      (4294967296 * (((v % 18446744073709551616).toNat / 4294967296 % 4294967296 : Nat) : Int))
      (by omega) (by omega)
    rw [e1]
    have e2 := roundDouble_exact
      ((((v % 18446744073709551616).toNat % 4294967296 % 4294967296 : Nat) : Int) +
        4294967296 * (((v % 18446744073709551616).toNat / 4294967296 % 4294967296 : Nat) : Int))
      (by omega) (by omega)
    rw [e2]
    congr 1
    omega

theorem decode_REPL_VAL (P : Protocol) (l : Bool) (encoding size : Nat) (data : List Byte) :
    decode P l P.REPL_VAL encoding size data = decodeVal P l encoding size data := by
  simp [decode]

/-- C6 (counterexample): for `v = 2^63 - 1` the sum `word0 + 0x100000000 * word1`
is rounded to a double and `decode` returns `2^63`, not `v`. -/
theorem C6_counterexample :
    (decode sampleProtocol true sampleProtocol.REPL_VAL sampleProtocol.GB_ENC_NUMBER 8
        (i64le 9223372036854775807)).result = .ok (.number 9223372036854775808) ∧
    (decode sampleProtocol true sampleProtocol.REPL_VAL sampleProtocol.GB_ENC_NUMBER 8
        (i64le 9223372036854775807)).result ≠ .ok (.number 9223372036854775807) := by
  decide

/-- C6 (amended): for every signed integer `v` in `[-2^53, 2^53]`, and for
`v = -2^63`, `decode(REPL_VAL, GB_ENC_NUMBER, 8, data)` on the 8-octet
little-endian two's-complement form of `v` returns exactly `v`; with `word0` and
`word1` the two little-endian unsigned 32-bit words, `v` is
`word0 + 2^32 * word1` when bit 31 of `word1` is clear and
`-((~word1 * 2^32) + (~word0) + 1)` when it is set. -/
theorem C6_int64_exact_within_double_range (P : Protocol) (l : Bool) (v : Int)
    (hP : P.GB_ENC_PLAIN ≠ P.GB_ENC_NUMBER)
    (hv : (-9007199254740992 ≤ v ∧ v ≤ 9007199254740992) ∨ v = -9223372036854775808) :
    decode P l P.REPL_VAL P.GB_ENC_NUMBER 8 (i64le v) = ⟨.ok (.number v), []⟩ ∧
    ∃ word0 word1 : Nat,
      readUInt32LE (i64le v) 0 = .ok word0 ∧ readUInt32LE (i64le v) 4 = .ok word1 ∧
      v = if word1 / 2147483648 % 2 = 0 then (word0 : Int) + 4294967296 * word1
          else -(((4294967295 - word1 : Nat) : Int) * 4294967296
                  + ((4294967295 - word0 : Nat) : Int) + 1) := by
  refine ⟨?_, ?_⟩
  · rcases hv with ⟨h1, h2⟩ | rfl
    · rw [decode_REPL_VAL]; exact decodeVal_int64 P l v hP h1 h2
    · rw [decode_REPL_VAL]
      unfold decodeVal
      rw [if_neg (Ne.symm hP), if_pos rfl, if_pos rfl]
      rw [show readUInt32LE (i64le (-9223372036854775808)) 0 = .ok 0 from by decide,
        show readUInt32LE (i64le (-9223372036854775808)) 4 = .ok 2147483648 from by decide]
      decide
  · have r0 := readUInt32LE_u32le ((v % 18446744073709551616).toNat % 4294967296)
      (u32le ((v % 18446744073709551616).toNat / 4294967296))
    have r1 := readUInt32LE_u32le_4 ((v % 18446744073709551616).toNat % 4294967296)
      ((v % 18446744073709551616).toNat / 4294967296) []
    simp only [List.append_nil] at r1
    refine ⟨_, _, r0, r1, ?_⟩
    split <;> omega

/-- Witness of C6 (amended): `v = -2^53` with the sample table. -/
theorem C6_int64_exact_within_double_range_witness :
    decode sampleProtocol true sampleProtocol.REPL_VAL sampleProtocol.GB_ENC_NUMBER 8
        (i64le (-9007199254740992)) = ⟨.ok (.number (-9007199254740992)), []⟩ ∧
    ∃ word0 word1 : Nat,
      readUInt32LE (i64le (-9007199254740992)) 0 = .ok word0 ∧
      readUInt32LE (i64le (-9007199254740992)) 4 = .ok word1 ∧
      (-9007199254740992 : Int) =
        if word1 / 2147483648 % 2 = 0 then (word0 : Int) + 4294967296 * word1
        else -(((4294967295 - word1 : Nat) : Int) * 4294967296
                + ((4294967295 - word0 : Nat) : Int) + 1) :=
  C6_int64_exact_within_double_range sampleProtocol true (-9007199254740992) (by decide)
    (Or.inl ⟨by decide, by decide⟩)

theorem u32le_take4 (data : List Byte) (h4 : 4 ≤ data.length) :
    u32le (byteAt data 0 + 256 * byteAt data 1 + 65536 * byteAt data 2
      + 16777216 * byteAt data 3) = data.take 4 := by
  match data, h4 with
  | b0 :: b1 :: b2 :: b3 :: rest, _ =>
    have h0 := b0.isLt
    have h1 := b1.isLt
    have h2 := b2.isLt
    have h3 := b3.isLt
    simp only [u32le, byteAt, List.getD_cons_zero, List.getD_cons_succ, List.take_succ_cons,
      List.take_zero]
    congr 1
    · apply Fin.ext; rw [val_ofNat]; omega
    congr 1
    · apply Fin.ext; rw [val_ofNat]; omega
    congr 1
    · apply Fin.ext; rw [val_ofNat]; omega
    congr 1
    apply Fin.ext; rw [val_ofNat]; omega

/-- C7 (confirmed): for every size other than 8 and every payload of at least 4
octets, `decode(REPL_VAL, GB_ENC_NUMBER, size, data)` returns the integer in
`[-2^31, 2^31-1]` whose little-endian two's-complement 32-bit form is the first
four octets of `data`. -/
theorem C7_int32_little_endian (P : Protocol) (l : Bool) (size : Nat) (data : List Byte)
    (hP : P.GB_ENC_PLAIN ≠ P.GB_ENC_NUMBER) (hs : size ≠ 8) (h4 : 4 ≤ data.length) :
    ∃ n : Int, decode P l P.REPL_VAL P.GB_ENC_NUMBER size data = ⟨.ok (.number n), []⟩ ∧
      -2147483648 ≤ n ∧ n ≤ 2147483647 ∧ i32le n = data.take 4 := by
  have hr : readUInt32LE data 0 = .ok (byteAt data 0 + 256 * byteAt data 1
      + 65536 * byteAt data 2 + 16777216 * byteAt data 3) := by
    simp [readUInt32LE]; omega
  have b0 := byteAt_lt data 0
  have b1 := byteAt_lt data 1
  have b2 := byteAt_lt data 2
  have b3 := byteAt_lt data 3
  have ht := u32le_take4 data h4
  rw [decode_REPL_VAL]
  unfold decodeVal
  rw [if_neg (Ne.symm hP), if_pos rfl, if_neg hs]
  have hri : readInt32LE data 0 = .ok
      (if byteAt data 0 + 256 * byteAt data 1 + 65536 * byteAt data 2
          + 16777216 * byteAt data 3 < 2147483648
       then ((byteAt data 0 + 256 * byteAt data 1 + 65536 * byteAt data 2
          + 16777216 * byteAt data 3 : Nat) : Int)
       else ((byteAt data 0 + 256 * byteAt data 1 + 65536 * byteAt data 2
          + 16777216 * byteAt data 3 : Nat) : Int) - 4294967296) := by
    unfold readInt32LE
    rw [hr]
    simp only []
    split <;> rfl
  simp only [hri]
  refine ⟨_, rfl, ?_, ?_, ?_⟩
  · split <;> omega
  · split <;> omega
  · unfold i32le
    rw [← ht]
    congr 1
    split <;> omega

/-- Witness of C7: size 4 and the octets `fe ff ff ff`, decoded to `-2`. -/
theorem C7_int32_little_endian_witness :
    ∃ n : Int, decode sampleProtocol true sampleProtocol.REPL_VAL sampleProtocol.GB_ENC_NUMBER 4
        [254, 255, 255, 255] = ⟨.ok (.number n), []⟩ ∧
      -2147483648 ≤ n ∧ n ≤ 2147483647 ∧ i32le n = ([254, 255, 255, 255] : List Byte).take 4 :=
  C7_int32_little_endian sampleProtocol true 4 [254, 255, 255, 255] (by decide) (by decide)
    (by decide)

/-! ### C8: text round trip -/

theorem isCont_ofNat (x : Nat) (h : x < 64) : isCont (Fin.ofNat (0x80 + x)) = true := by
  simp only [isCont, val_ofNat, Bool.and_eq_true, decide_eq_true_eq]
  omega

theorem secondOk_ofNat (a x : Nat) (ha : 0xE0 ≤ a) (ha2 : a < 0xF5) (hx : x < 64)
    (hE0 : a = 0xE0 → 32 ≤ x) (hED : a = 0xED → x < 32)
    (hF0 : a = 0xF0 → 16 ≤ x) (hF4 : a = 0xF4 → x < 16) :
    secondOk (Fin.ofNat a) (Fin.ofNat (0x80 + x)) = true := by
  unfold secondOk
  simp only [val_ofNat, isCont]
  split
  · rename_i h; have := hE0 (by omega); simp only [Bool.and_eq_true, decide_eq_true_eq]; omega
  · split
    · rename_i h; have := hED (by omega); simp only [Bool.and_eq_true, decide_eq_true_eq]; omega
    · split
      · rename_i h; have := hF0 (by omega)
        simp only [Bool.and_eq_true, decide_eq_true_eq]; omega
      · split
        · rename_i h; have := hF4 (by omega)
          simp only [Bool.and_eq_true, decide_eq_true_eq]; omega
        · simp only [Bool.and_eq_true, decide_eq_true_eq]; omega

theorem utf8DecodeOne_encodeNat (n : Nat)
    (hr : n < 0xD800 ∨ (0xDFFF < n ∧ n < 0x110000)) (rest : List Byte) :
    ∃ b0 t, (utf8EncodeNat n).map Fin.ofNat = b0 :: t ∧
      utf8DecodeOne b0 (t ++ rest) = (Char.ofNat n, t.length + 1) := by
  have c1 := isCont_ofNat (n % 64) (Nat.mod_lt _ (by decide))
  have c2 := isCont_ofNat (n / 64 % 64) (Nat.mod_lt _ (by decide))
  unfold utf8EncodeNat
  by_cases h1 : n < 0x80
  · rw [if_pos h1]
    refine ⟨_, _, rfl, ?_⟩
    simp only [utf8DecodeOne, val_ofNat]
    rw [if_pos (by omega)]
    rw [show n % 256 = n from by omega]
    rfl
  · rw [if_neg h1]
    by_cases h2 : n < 0x800
    · rw [if_pos h2]
      refine ⟨_, _, rfl, ?_⟩
      simp only [utf8DecodeOne, val_ofNat, List.map_cons, List.map_nil, List.cons_append,
        List.nil_append, List.getD_cons_zero, List.length_cons, c1]
      rw [if_neg (by omega), if_pos ⟨by omega, by omega⟩, if_pos ⟨by omega, trivial⟩]
      rw [show ((192 + n / 64) % 256 - 192) * 64 + ((128 + n % 64) % 256 - 128) = n from by omega]
      rfl
    · rw [if_neg h2]
      by_cases h3 : n < 0x10000
      · rw [if_pos h3]
        have s1 := secondOk_ofNat (0xE0 + n / 4096) (n / 64 % 64) (by omega) (by omega)
          (Nat.mod_lt _ (by decide)) (by omega) (by omega) (by omega) (by omega)
        refine ⟨_, _, rfl, ?_⟩
        simp only [utf8DecodeOne, val_ofNat, List.map_cons, List.map_nil, List.cons_append,
          List.nil_append, List.getD_cons_zero, List.getD_cons_succ, List.length_cons, c1, s1]
        have e : ((224 + n / 4096) % 256 - 224) * 4096 + ((128 + n / 64 % 64) % 256 - 128) * 64
            + ((128 + n % 64) % 256 - 128) = n := by omega
        rw [e]
        rw [if_neg (by omega), if_neg (by omega), if_pos ⟨by omega, by omega⟩,
          if_neg (by simp), if_neg (by simp)]
        rfl
      · rw [if_neg h3]
        have c3 := isCont_ofNat (n / 64 % 64) (Nat.mod_lt _ (by decide))
        have s1 := secondOk_ofNat (0xF0 + n / 262144 % 8) (n / 4096 % 64) (by omega) (by omega)
          (Nat.mod_lt _ (by decide)) (by omega) (by omega) (by omega) (by omega)
        refine ⟨_, _, rfl, ?_⟩
        simp only [utf8DecodeOne, val_ofNat, List.map_cons, List.map_nil, List.cons_append,
          List.nil_append, List.getD_cons_zero, List.getD_cons_succ, List.length_cons, c1, c2, s1]
        have e : ((240 + n / 262144 % 8) % 256 - 240) * 262144
            + ((128 + n / 4096 % 64) % 256 - 128) * 4096
            + ((128 + n / 64 % 64) % 256 - 128) * 64
            + ((128 + n % 64) % 256 - 128) = n := by omega
        rw [e]
        rw [if_neg (by omega), if_neg (by omega), if_neg (by omega),
          if_pos ⟨by omega, by omega⟩, if_neg (by simp), if_neg (by simp), if_neg (by simp)]
        rfl

theorem utf8DecodeOne_encodeChar (c : Char) (rest : List Byte) :
    ∃ b0 t, utf8EncodeChar c = b0 :: t ∧
      utf8DecodeOne b0 (t ++ rest) = (c, t.length + 1) := by
  obtain ⟨b0, t, h1, h2⟩ := utf8DecodeOne_encodeNat c.toNat c.valid rest
  rw [Char.ofNat_toNat] at h2
  exact ⟨b0, t, h1, h2⟩

theorem utf8DecodeAux_encode : ∀ (cs : List Char) (fuel : Nat), cs.length ≤ fuel →
    utf8DecodeAux fuel (cs.flatMap utf8EncodeChar) = cs := by
  intro cs
  induction cs with
  | nil =>
    intro fuel _
    cases fuel <;> rfl
  | cons c cs ih =>
    intro fuel hf
    obtain ⟨k, rfl⟩ : ∃ k, fuel = k + 1 := ⟨fuel - 1, by simp at hf; omega⟩
    obtain ⟨b0, t, h1, h2⟩ := utf8DecodeOne_encodeChar c (cs.flatMap utf8EncodeChar)
    simp only [List.flatMap_cons, h1, List.cons_append, utf8DecodeAux, h2]
    simp only [Nat.add_sub_cancel, List.drop_left]
    rw [ih k (by simp at hf; omega)]

theorem utf8EncodeChar_length_pos (c : Char) : 1 ≤ (utf8EncodeChar c).length := by
  obtain ⟨b0, t, h1, _⟩ := utf8DecodeOne_encodeChar c []
  rw [h1]; simp

theorem length_le_flatMap_encode : ∀ (cs : List Char),
    cs.length ≤ (cs.flatMap utf8EncodeChar).length := by
  intro cs
  induction cs with
  | nil => simp
  | cons c cs ih =>
    have := utf8EncodeChar_length_pos c
    simp only [List.flatMap_cons, List.length_append, List.length_cons]
    omega

theorem bufToString_utf8Encode (s : String) : bufToString (utf8Encode s) = s := by
  unfold bufToString utf8Decode utf8Encode
  rw [utf8DecodeAux_encode s.data _ (length_le_flatMap_encode s.data)]

/-- C8 (confirmed): for every string `s`, `decode(REPL_VAL, GB_ENC_PLAIN, L, data)`
on the `L` UTF-8 octets of `s` returns exactly `s`. -/
theorem C8_plain_text_roundtrip (P : Protocol) (l : Bool) (s : String) :
    decode P l P.REPL_VAL P.GB_ENC_PLAIN (byteLength s) (utf8Encode s)
      = ⟨.ok (.text s), []⟩ := by
  rw [decode_REPL_VAL]
  unfold decodeVal
  rw [if_pos rfl, bufToString_utf8Encode]

/-! ### C9: maps -/

theorem byteAt_append (pre xs : List Byte) (i : Nat) :
    byteAt (pre ++ xs) (pre.length + i) = byteAt xs i := by
  unfold byteAt
  rw [List.getD_eq_getElem?_getD, List.getD_eq_getElem?_getD,
    List.getElem?_append_right (by omega)]
  simp

theorem readUInt32LE_at (B pre post : List Byte) (a off : Nat)
    (hB : B = pre ++ (u32le a ++ post)) (ho : off = pre.length) :
    readUInt32LE B off = .ok (a % 4294967296) := by
  subst hB ho
  have h := readUInt32LE_u32le a post
  unfold readUInt32LE at h ⊢
  have hl : (u32le a ++ post).length = 4 + post.length := by simp [u32le]; omega
  rw [if_pos (by rw [hl]; omega)] at h
  rw [if_pos (by rw [List.length_append, hl]; omega)]
  have h' := Except.ok.inj h
  simp only [Nat.zero_add] at h'
  have e0 := byteAt_append pre (u32le a ++ post) 0
  simp only [Nat.add_zero] at e0
  rw [e0, byteAt_append, byteAt_append, byteAt_append, h']

theorem readUInt8_at (B pre post : List Byte) (b : Byte) (off : Nat)
    (hB : B = pre ++ (b :: post)) (ho : off = pre.length) :
    readUInt8 B off = .ok b.val := by
  subst hB ho
  unfold readUInt8
  rw [if_pos (by simp)]
  have e0 := byteAt_append pre (b :: post) 0
  simp only [Nat.add_zero] at e0
  rw [e0]
  rfl

theorem slice_at (B pre mid post : List Byte) (off stop : Nat)
    (hB : B = pre ++ (mid ++ post)) (ho : off = pre.length) (hs : stop = off + mid.length) :
    (B.take stop).drop off = mid := by
  subst hB ho hs
  rw [List.take_append, List.drop_left, List.take_left]

theorem bufCopy_at (B pre mid post : List Byte) (off stop : Nat)
    (hB : B = pre ++ (mid ++ post)) (ho : off = pre.length) (hs : stop = off + mid.length) :
    bufCopy B (newBuffer mid.length) 0 off stop = mid := by
  unfold bufCopy
  simp only [slice_at B pre mid post off stop hB ho hs, newBuffer, List.length_replicate,
    Nat.sub_zero, List.take_zero, List.nil_append, Nat.zero_add]
  simp

theorem decodeEntries_step (P : Protocol) (l : Bool) (pre post : List Byte) (e : Entry)
    (hv : e.Valid) (n : Nat) (obj : JSObject) (em : List String) :
    decodeEntries P l (pre ++ (e.bytes ++ post)) (n + 1) pre.length obj em =
      (match (decodeVal P l e.enc e.value.length e.value).result with
       | .error err =>
         ⟨.error err, em ++ (decodeVal P l e.enc e.value.length e.value).emitted⟩
       | .ok val =>
         decodeEntries P l (pre ++ (e.bytes ++ post)) n (pre.length + e.bytes.length)
           (objSet obj (bufToString e.key) val)
           (em ++ (decodeVal P l e.enc e.value.length e.value).emitted)) := by
  obtain ⟨hk, he, hs⟩ := hv
  have h1 : readUInt32LE (pre ++ (e.bytes ++ post)) pre.length = .ok e.key.length := by
    have := readUInt32LE_at (pre ++ (e.bytes ++ post)) pre
      (e.key ++ [Fin.ofNat e.enc] ++ u32le e.value.length ++ e.value ++ post)
      e.key.length pre.length (by simp [Entry.bytes]) rfl
    rw [Nat.mod_eq_of_lt hk] at this
    exact this
  have h2 : bufToStringRange (pre ++ (e.bytes ++ post)) (pre.length + 4)
      (pre.length + 4 + e.key.length) = bufToString e.key := by
    unfold bufToStringRange
    rw [slice_at (pre ++ (e.bytes ++ post)) (pre ++ u32le e.key.length) e.key
      ([Fin.ofNat e.enc] ++ u32le e.value.length ++ e.value ++ post) _ _
      (by simp [Entry.bytes]) (by simp [u32le_length]) rfl]
  have h3 : readUInt8 (pre ++ (e.bytes ++ post)) (pre.length + 4 + e.key.length) = .ok e.enc := by
    have := readUInt8_at (pre ++ (e.bytes ++ post)) (pre ++ u32le e.key.length ++ e.key)
      (u32le e.value.length ++ e.value ++ post) (Fin.ofNat e.enc) (pre.length + 4 + e.key.length)
      (by simp [Entry.bytes]) (by simp [u32le_length]; omega)
    rw [val_ofNat, Nat.mod_eq_of_lt he] at this
    exact this
  have h4 : readUInt32LE (pre ++ (e.bytes ++ post)) (pre.length + 4 + e.key.length + 1)
      = .ok e.value.length := by
    have := readUInt32LE_at (pre ++ (e.bytes ++ post))
      (pre ++ u32le e.key.length ++ e.key ++ [Fin.ofNat e.enc]) (e.value ++ post)
      e.value.length (pre.length + 4 + e.key.length + 1)
      (by simp [Entry.bytes]) (by simp [u32le_length]; omega)
    rw [Nat.mod_eq_of_lt hs] at this
    exact this
  have h5 : bufCopy (pre ++ (e.bytes ++ post)) (newBuffer e.value.length) 0
      (pre.length + 4 + e.key.length + 1 + 4)
      (pre.length + 4 + e.key.length + 1 + 4 + e.value.length) = e.value :=
    bufCopy_at (pre ++ (e.bytes ++ post)) (pre ++ u32le e.key.length ++ e.key
      ++ [Fin.ofNat e.enc] ++ u32le e.value.length) e.value post _ _
      (by simp [Entry.bytes]) (by simp [u32le_length]; omega) rfl
  have h6 : pre.length + 4 + e.key.length + 1 + 4 + e.value.length
      = pre.length + e.bytes.length := by
    simp [Entry.bytes, u32le_length]; omega
  rw [decodeEntries]
  simp only [h1, h2, h3, h4, h5]
  simp only [h6]

theorem decodeEntries_all (P : Protocol) (l : Bool) (post : List Byte) :
    ∀ (es : List Entry) (vals : List Value) (pre : List Byte) (obj : JSObject)
      (em : List String),
    (∀ e ∈ es, e.Valid) →
    List.Forall₂ (fun e v => (decodeVal P l e.enc e.value.length e.value).result = .ok v)
      es vals →
    (decodeEntries P l (pre ++ (es.flatMap Entry.bytes ++ post)) es.length pre.length obj
        em).result
      = .ok (.object (((es.map (fun e => bufToString e.key)).zip vals).foldl
          (fun o kv => objSet o kv.1 kv.2) obj)) := by
  intro es
  induction es with
  | nil =>
    intro vals pre obj em _ hdec
    cases hdec
    simp [decodeEntries]
  | cons e es ih =>
    intro vals pre obj em hv hdec
    cases hdec with
    | cons hd htl =>
      rename_i v vs
      have hB : pre ++ ((e :: es).flatMap Entry.bytes ++ post)
          = pre ++ (e.bytes ++ (es.flatMap Entry.bytes ++ post)) := by simp
      rw [hB, List.length_cons, decodeEntries_step P l pre _ e (hv e (List.mem_cons_self _ _)),
        hd]
      simp only []
      have hB2 : pre ++ (e.bytes ++ (es.flatMap Entry.bytes ++ post))
          = (pre ++ e.bytes) ++ (es.flatMap Entry.bytes ++ post) := by simp
      have hl : pre.length + e.bytes.length = (pre ++ e.bytes).length := by simp
      rw [hB2, hl, ih vs (pre ++ e.bytes) _ _ (fun g hg => hv g (List.mem_cons_of_mem _ hg)) htl]
      simp

theorem objSet_fresh (o : JSObject) (k : String) (v : Value) (hk : k ≠ "__proto__")
    (hi : arrayIndex? k = none) (hnew : ∀ p ∈ o, p.1 ≠ k) : objSet o k v = o ++ [(k, v)] := by
  unfold objSet
  rw [if_neg hk]
  have : o.any (fun p => decide (p.1 = k)) = false := by
    rw [List.any_eq_false]
    intro p hp
    simpa using hnew p hp
  rw [this, hi]
  simp

theorem foldl_objSet_fresh : ∀ (kvs : List (String × Value)) (o : JSObject),
    (kvs.map Prod.fst).Nodup →
    (∀ kv ∈ kvs, kv.1 ≠ "__proto__" ∧ arrayIndex? kv.1 = none ∧ ∀ p ∈ o, p.1 ≠ kv.1) →
    kvs.foldl (fun o kv => objSet o kv.1 kv.2) o = o ++ kvs := by
  intro kvs
  induction kvs with
  | nil => intro o _ _; simp
  | cons kv kvs ih =>
    intro o hnd h
    obtain ⟨h1, h2, h3⟩ := h kv (List.mem_cons_self _ _)
    rw [List.map_cons, List.nodup_cons] at hnd
    rw [List.foldl_cons, objSet_fresh o kv.1 kv.2 h1 h2 h3, ih _ hnd.2]
    · simp
    · intro kv2 hkv2
      obtain ⟨g1, g2, g3⟩ := h kv2 (List.mem_cons_of_mem _ hkv2)
      refine ⟨g1, g2, ?_⟩
      intro p hp
      rcases List.mem_append.mp hp with hp | hp
      · exact g3 p hp
      · simp only [List.mem_singleton] at hp
        subst hp
        intro heq
        exact hnd.1 (List.mem_map.mpr ⟨kv2, hkv2, heq.symm⟩)

/-- C9 (counterexample): a well-formed payload of two entries with the same key
`a` decodes to a mapping of one pair, not two. -/
theorem C9_counterexample :
    decode sampleProtocol true sampleProtocol.REPL_KVAL 0 22
        (mapPayload [⟨[97], 0, [120]⟩, ⟨[97], 0, [121]⟩])
      = ⟨.ok (.object [("a", .text "y")]), []⟩ := by
  decide

/-- C9 (amended): for every `N >= 0` and every well-formed map payload of `N`
entries whose keys are pairwise distinct and are neither `__proto__` nor array
indices, and whose values the scalar path decodes, `decode(REPL_KVAL, ...)`
returns a mapping with exactly `N` key/value pairs, in the order the entries
appear in the payload, each key being the UTF-8 text of its key octets and each
value the scalar decoding of its value octets; for `N = 0` (`es = []`) the
result is the empty map. -/
theorem C9_map_pairs_in_payload_order (P : Protocol) (l : Bool) (encoding size : Nat)
    (es : List Entry) (vals : List Value)
    (hP : P.REPL_KVAL ≠ P.REPL_VAL) (hN : es.length < 4294967296)
    (hv : ∀ e ∈ es, e.Valid)
    (hnd : (es.map (fun e => bufToString e.key)).Nodup)
    (hplain : ∀ e ∈ es, bufToString e.key ≠ "__proto__" ∧ arrayIndex? (bufToString e.key) = none)
    (hdec : List.Forall₂
      (fun e v => (decode P l P.REPL_VAL e.enc e.value.length e.value).result = .ok v) es vals) :
    (decode P l P.REPL_KVAL encoding size (mapPayload es)).result
        = .ok (.object ((es.map (fun e => bufToString e.key)).zip vals)) ∧
      ((es.map (fun e => bufToString e.key)).zip vals).length = es.length := by
  have hlen : es.length = vals.length := hdec.length_eq
  have hdec' : List.Forall₂
      (fun e v => (decodeVal P l e.enc e.value.length e.value).result = .ok v) es vals := by
    refine List.Forall₂.imp ?_ hdec
    intro e v h
    rw [decode_REPL_VAL] at h
    exact h
  have hcount : readUInt32LE (mapPayload es) 0 = .ok es.length := by
    have := readUInt32LE_u32le es.length (es.flatMap Entry.bytes)
    rw [Nat.mod_eq_of_lt hN] at this
    exact this
  refine ⟨?_, by simp [hlen]⟩
  unfold decode
  rw [if_neg hP, if_pos rfl]
  simp only [hcount]
  have hall := decodeEntries_all P l [] es vals (u32le es.length) [] [] hv hdec'
  simp only [List.append_nil, u32le_length] at hall
  unfold mapPayload
  rw [hall, foldl_objSet_fresh _ [] ?_ ?_]
  · simp
  · rw [List.map_fst_zip]
    · exact hnd
    · simp [hlen]
  · intro kv hkv
    have hmem : kv.1 ∈ es.map (fun e => bufToString e.key) := (List.of_mem_zip hkv).1
    obtain ⟨e, he, hk⟩ := List.mem_map.mp hmem
    obtain ⟨g1, g2⟩ := hplain e he
    rw [hk] at g1 g2
    exact ⟨g1, g2, by simp⟩

/-- Witness of C9 (amended): the entries `a ↦ "x"` and `é ↦ 1`. -/
theorem C9_map_pairs_in_payload_order_witness :
    (decode sampleProtocol true sampleProtocol.REPL_KVAL 0 0
        (mapPayload [⟨[97], 0, [120]⟩, ⟨[195, 169], 2, [1, 0, 0, 0]⟩])).result
        = .ok (.object ((([⟨[97], 0, [120]⟩, ⟨[195, 169], 2, [1, 0, 0, 0]⟩] : List Entry).map
            (fun e => bufToString e.key)).zip [.text "x", .number 1])) ∧
      ((([⟨[97], 0, [120]⟩, ⟨[195, 169], 2, [1, 0, 0, 0]⟩] : List Entry).map
            (fun e => bufToString e.key)).zip [Value.text "x", Value.number 1]).length
        = ([⟨[97], 0, [120]⟩, ⟨[195, 169], 2, [1, 0, 0, 0]⟩] : List Entry).length :=
  C9_map_pairs_in_payload_order sampleProtocol true 0 0
    [⟨[97], 0, [120]⟩, ⟨[195, 169], 2, [1, 0, 0, 0]⟩] [.text "x", .number 1]
    (by decide) (by decide) (by decide) (by decide) (by decide)
    (List.Forall₂.cons (by decide) (List.Forall₂.cons (by decide) List.Forall₂.nil))

/-- The payload of no entry decodes to the empty map. -/
theorem map_empty (P : Protocol) (l : Bool) (encoding size : Nat)
    (hP : P.REPL_KVAL ≠ P.REPL_VAL) :
    decode P l P.REPL_KVAL encoding size (mapPayload []) = ⟨.ok (.object []), []⟩ := by
  unfold decode
  rw [if_neg hP, if_pos rfl]
  rfl

/-- Array-index keys are enumerated in ascending numeric order, whatever the
order of the entries in the payload. -/
theorem map_array_index_keys_reordered :
    decode sampleProtocol true sampleProtocol.REPL_KVAL 0 0
        (mapPayload [⟨[49, 48], 0, [120]⟩, ⟨[57], 0, [121]⟩])
      = ⟨.ok (.object [("9", .text "y"), ("10", .text "x")]), []⟩ := by
  decide

/-- An entry whose key is `__proto__` creates no property. -/
theorem map_proto_key_dropped :
    decode sampleProtocol true sampleProtocol.REPL_KVAL 0 0
        (mapPayload [⟨[95, 95, 112, 114, 111, 116, 111, 95, 95], 0, [120]⟩])
      = ⟨.ok (.object []), []⟩ := by
  decide

/-! ### C10: unknown encoding -/

theorem decodeVal_unknown (P : Protocol) (l : Bool) (encoding size : Nat) (data : List Byte)
    (h1 : encoding ≠ P.GB_ENC_PLAIN) (h2 : encoding ≠ P.GB_ENC_NUMBER) :
    decodeVal P l encoding size data = emitError l "Unknown encoding" := by
  unfold decodeVal
  rw [if_neg h1, if_neg h2]

/-- C10 (counterexample): on the frame `06 00 01 00 00 00 00` (`REPL_VAL`,
encoding 1) a client with an `'error'` listener invokes the head callback with
`undefined` as its error argument, and a client without one throws out of
`handle_incoming_data` with the frame still in the buffer and the callback
still queued. -/
theorem C10_counterexample :
    handle_incoming_data sampleProtocol 1
        { Client.new true true with
          buffer := some [6, 0, 1, 0, 0, 0, 0], callbacks := [⟨1, some 10⟩] }
      = some (.returned { Client.new true true with
          buffer := some [], emitted := ["Unknown encoding"],
          calls := [⟨10, none, .undefined⟩] }) ∧
    handle_incoming_data sampleProtocol 1
        { Client.new true false with
          buffer := some [6, 0, 1, 0, 0, 0, 0], callbacks := [⟨1, some 10⟩] }
      = some (.threw (.unhandledError "Unknown encoding") { Client.new true false with
          buffer := some [6, 0, 1, 0, 0, 0, 0], callbacks := [⟨1, some 10⟩] }) := by
  decide

/-- C10 (amended): for every scalar (`REPL_VAL`) frame whose encoding octet is
neither `GB_ENC_PLAIN` nor `GB_ENC_NUMBER`, on a client that has an `'error'`
listener, processing the frame neither throws nor waits: `decode` delivers an
`'error'` event with the text `Unknown encoding` to the listeners of the client
and returns `undefined`; the callback at the head of the queue is invoked with
`undefined` as its error argument and `undefined` as its data; the octets of the
frame are consumed and the loop goes on with the octets that follow. -/
theorem C10_unknown_encoding_emits_event (P : Protocol) (c : Client) (f : Frame)
    (rest : List Byte) (op cb : Nat) (pending : List Pending)
    (hv : f.Valid) (hcode : f.code = P.REPL_VAL)
    (h1 : f.encoding ≠ P.GB_ENC_PLAIN) (h2 : f.encoding ≠ P.GB_ENC_NUMBER)
    (herr : P.isErrorCode P.REPL_VAL = false)
    (hl : c.errorListener = true)
    (hb : c.buffer = some (f.bytes ++ rest))
    (hq : c.callbacks = ⟨op, some cb⟩ :: pending) :
    iteration P c =
      (if rest = [] then Step.exit else Step.again)
        { c with
          buffer := some rest
          callbacks := pending
          emitted := c.emitted ++ ["Unknown encoding"]
          calls := c.calls ++ [⟨cb, none, .undefined⟩] } := by
  have hd : decode P c.errorListener f.code f.encoding f.payload.length f.payload
      = ⟨.ok .undefined, ["Unknown encoding"]⟩ := by
    rw [hcode, decode_REPL_VAL, decodeVal_unknown P _ _ _ _ h1 h2, hl]
    rfl
  rw [iteration_frame P c f rest hv hb, hd]
  simp only [afterFrame, errorArg, hq, List.head?_cons, List.tail_cons, hcode, herr]
  split <;> simp

/-- Witness of C10 (amended): the frame `06 00 01 00 00 00 00` followed by one
more octet. -/
theorem C10_unknown_encoding_emits_event_witness :
    iteration sampleProtocol
        { Client.new true true with
          buffer := some ((⟨6, 1, []⟩ : Frame).bytes ++ [9]), callbacks := [⟨1, some 10⟩] } =
      (if ([9] : List Byte) = [] then Step.exit else Step.again)
        { ({ Client.new true true with
              buffer := some ((⟨6, 1, []⟩ : Frame).bytes ++ [9]),
              callbacks := [⟨1, some 10⟩] } : Client) with
          buffer := some [9]
          callbacks := []
          emitted := ({ Client.new true true with
              buffer := some ((⟨6, 1, []⟩ : Frame).bytes ++ [9]),
              callbacks := [⟨1, some 10⟩] } : Client).emitted ++ ["Unknown encoding"]
          calls := ({ Client.new true true with
              buffer := some ((⟨6, 1, []⟩ : Frame).bytes ++ [9]),
              callbacks := [⟨1, some 10⟩] } : Client).calls ++ [⟨10, none, .undefined⟩] } :=
  C10_unknown_encoding_emits_event sampleProtocol
    { Client.new true true with
      buffer := some ((⟨6, 1, []⟩ : Frame).bytes ++ [9]), callbacks := [⟨1, some 10⟩] }
    ⟨6, 1, []⟩ [9] 1 10 [] (by decide) rfl (by decide) (by decide) rfl rfl rfl rfl

/-! ### C12, C13: missing request, missing connection -/

/-- C12 (counterexample): the complete frame `06 00 00 01 00 00 00 68` arrives
while the callback queue is empty; `handle_incoming_data` returns normally, no
error is raised or emitted, no callback is invoked and the frame is gone. -/
theorem C12_counterexample :
    handle_incoming_data sampleProtocol 1
        { Client.new true true with buffer := some [6, 0, 0, 1, 0, 0, 0, 104] }
      = some (.returned { Client.new true true with buffer := some [] }) := by
  decide

/-- C12 (amended): for every complete frame that `decode` turns into a value, if
the callback queue is empty when `handle_incoming_data` processes it, no error
is raised: no callback is invoked, the queue stays empty, the octets of the
frame are consumed and the loop goes on; the reply is dropped. -/
theorem C12_reply_without_request_dropped (P : Protocol) (c : Client) (f : Frame)
    (rest : List Byte) (v : Value) (hv : f.Valid)
    (hb : c.buffer = some (f.bytes ++ rest)) (hq : c.callbacks = [])
    (hd : (decode P c.errorListener f.code f.encoding f.payload.length f.payload).result
      = .ok v) :
    iteration P c =
      (if rest = [] then Step.exit else Step.again)
        { c with
          buffer := some rest
          callbacks := []
          emitted := c.emitted ++
            (decode P c.errorListener f.code f.encoding f.payload.length f.payload).emitted
          calls := c.calls } := by
  rw [iteration_frame P c f rest hv hb, hd]
  simp only [afterFrame, hq, List.head?_nil, List.tail_nil, List.append_nil]
  split <;> rfl

/-- Witness of C12 (amended): a text frame followed by one more octet. -/
theorem C12_reply_without_request_dropped_witness :
    iteration sampleProtocol
        { Client.new true true with buffer := some ((⟨6, 0, [104]⟩ : Frame).bytes ++ [9]) }
      = .again { Client.new true true with buffer := some [9] } :=
  (C12_reply_without_request_dropped sampleProtocol
    { Client.new true true with buffer := some ((⟨6, 0, [104]⟩ : Frame).bytes ++ [9]) }
    ⟨6, 0, [104]⟩ [9] (.text "h") (by decide) rfl rfl (by decide)).trans (by decide)

/-- C13 (counterexample): `query` on a client that is not connected throws a
`TypeError` and leaves the request in the callback queue. -/
theorem C13_counterexample :
    query (Client.new true true) 3 "a" (some 10)
      = .threw .typeError { Client.new true true with callbacks := [⟨3, some 10⟩] } := by
  decide

theorem query_not_connected (c : Client) (opcode : Nat) (payload : String)
    (callback : Option Nat) (hc : c.conn = none) :
    query c opcode payload callback =
      .threw (if 2 + byteLength payload < 4294967296 ∧ opcode < 65536 then JSError.typeError
              else JSError.rangeError)
        { c with callbacks := c.callbacks ++ [⟨opcode, callback⟩] } := by
  unfold query
  simp only []
  by_cases h1 : 2 + byteLength payload < 4294967296
  · have w1 : writeUInt32LE (newBuffer (4 + 2 + byteLength payload)) (2 + byteLength payload) 0
        = .ok (u32le (2 + byteLength payload) ++ newBuffer (2 + byteLength payload)) := by
      unfold writeUInt32LE
      rw [if_pos ⟨h1, by simp [newBuffer]; omega⟩]
      simp [newBuffer, u32le]
      omega
    by_cases h2 : opcode < 65536
    · have w2 : writeUInt16LE (u32le (2 + byteLength payload)
          ++ newBuffer (2 + byteLength payload)) opcode 4
          = .ok (u32le (2 + byteLength payload) ++ u16le opcode
              ++ newBuffer (byteLength payload)) := by
        unfold writeUInt16LE
        rw [if_pos ⟨h2, by simp [newBuffer, u32le]⟩]
        simp [newBuffer, u32le, u16le]
      simp only [w1, w2, hc, h1, h2, and_self, if_true]
    · have w2 : writeUInt16LE (u32le (2 + byteLength payload)
          ++ newBuffer (2 + byteLength payload)) opcode 4 = .error .rangeError := by
        unfold writeUInt16LE
        rw [if_neg (fun h => h2 h.1)]
      simp only [w1, w2, h1, h2, and_false, if_false]
  · have w1 : writeUInt32LE (newBuffer (4 + 2 + byteLength payload)) (2 + byteLength payload) 0
        = .error .rangeError := by
      unfold writeUInt32LE
      rw [if_neg (fun h => h1 h.1)]
    simp only [w1, h1, false_and, if_false]

/-- C13 (amended): for every opcode, payload and callback, if the client is not
connected (`conn` is null), `query` first appends `{ op, cb }` to the callback
queue and then throws — the `TypeError` of `this.conn.write` on `null` (a
`RangeError` of the packet writes when the opcode or the length does not fit its
field); the entry stays in the queue. -/
theorem C13_query_not_connected_throws (c : Client) (opcode : Nat) (payload : String)
    (callback : Option Nat) (hc : c.conn = none) :
    query c opcode payload callback =
      .threw (if 2 + byteLength payload < 4294967296 ∧ opcode < 65536 then JSError.typeError
              else JSError.rangeError)
        { c with callbacks := c.callbacks ++ [⟨opcode, callback⟩] } :=
  query_not_connected c opcode payload callback hc

/-- Witness of C13 (amended): opcode 3, payload `a`, on a new client. -/
theorem C13_query_not_connected_throws_witness :
    query (Client.new true true) 3 "a" (some 10) =
      .threw (if 2 + byteLength "a" < 4294967296 ∧ 3 < 65536 then JSError.typeError
              else JSError.rangeError)
        { Client.new true true with
          callbacks := (Client.new true true).callbacks ++ [⟨3, some 10⟩] } :=
  C13_query_not_connected_throws (Client.new true true) 3 "a" (some 10) rfl

/-! ### C14, C15: error codes and other codes -/

theorem decode_other (P : Protocol) (l : Bool) (code encoding size : Nat) (data : List Byte)
    (h1 : code ≠ P.REPL_VAL) (h2 : code ≠ P.REPL_KVAL) :
    decode P l code encoding size data = ⟨.ok (.buffer data), []⟩ := by
  unfold decode
  rw [if_neg h1, if_neg h2]

/-- C14 (counterexample): the error frame `01 00 00 00 00 00 00` arrives while
the head of the queue was queued without a callback: the entry is removed and
no callback is invoked, with or without an error. -/
theorem C14_counterexample :
    handle_incoming_data sampleProtocol 1
        { Client.new true true with
          buffer := some [1, 0, 0, 0, 0, 0, 0], callbacks := [⟨1, none⟩] }
      = some (.returned { Client.new true true with buffer := some [] }) := by
  decide

/-- C14 (amended): for every complete frame and every callback queue whose head
entry has a callback: when the response code is an error code,
`handle_incoming_data` still extracts the payload, `decode` returns it, and the
head callback is invoked with an error whose message is `Protocol.errors[code]`
and with that payload; when the code is not an error code and `decode` returns
a value, the callback's error argument is `undefined`.  (`REPL_VAL` and
`REPL_KVAL` are not error codes.) -/
theorem C14_error_code_reply (P : Protocol) (c : Client) (f : Frame) (rest : List Byte)
    (op cb : Nat) (pending : List Pending) (hv : f.Valid)
    (hval : P.isErrorCode P.REPL_VAL = false) (hkval : P.isErrorCode P.REPL_KVAL = false)
    (hb : c.buffer = some (f.bytes ++ rest))
    (hq : c.callbacks = ⟨op, some cb⟩ :: pending) :
    iteration P c =
      if P.isErrorCode f.code then
        (if rest = [] then Step.exit else Step.again)
          { c with
            buffer := some rest
            callbacks := pending
            calls := c.calls ++ [⟨cb, some (P.errors f.code), .buffer f.payload⟩] }
      else
        match (decode P c.errorListener f.code f.encoding f.payload.length f.payload).result with
        | .error e => Step.throw e { c with emitted := c.emitted ++
            (decode P c.errorListener f.code f.encoding f.payload.length f.payload).emitted }
        | .ok v =>
          (if rest = [] then Step.exit else Step.again)
            { c with
              buffer := some rest
              callbacks := pending
              emitted := c.emitted ++
                (decode P c.errorListener f.code f.encoding f.payload.length f.payload).emitted
              calls := c.calls ++ [⟨cb, none, v⟩] } := by
  rw [iteration_frame P c f rest hv hb]
  by_cases herr : P.isErrorCode f.code = true
  · have h1 : f.code ≠ P.REPL_VAL := by
      intro h; rw [h, hval] at herr; exact Bool.noConfusion herr
    have h2 : f.code ≠ P.REPL_KVAL := by
      intro h; rw [h, hkval] at herr; exact Bool.noConfusion herr
    rw [decode_other P _ _ _ _ _ h1 h2, if_pos herr]
    simp only [afterFrame, errorArg, hq, List.head?_cons, List.tail_cons, herr, if_true,
      List.append_nil]
    split <;> rfl
  · rw [if_neg herr]
    cases (decode P c.errorListener f.code f.encoding f.payload.length f.payload).result with
    | error e => rfl
    | ok v =>
      simp only [afterFrame, errorArg, hq, List.head?_cons, List.tail_cons, herr, if_false]
      split <;> simp

/-- Witness of C14 (amended): the error frame with code 1 and payload `78`. -/
theorem C14_error_code_reply_witness :
    iteration sampleProtocol
        { Client.new true true with
          buffer := some ((⟨1, 0, [120]⟩ : Frame).bytes ++ []), callbacks := [⟨4, some 10⟩] }
      = .exit { Client.new true true with
          buffer := some [], calls := [⟨10, some (some "Not found"), .buffer [120]⟩] } :=
  (C14_error_code_reply sampleProtocol
    { Client.new true true with
      buffer := some ((⟨1, 0, [120]⟩ : Frame).bytes ++ []), callbacks := [⟨4, some 10⟩] }
    ⟨1, 0, [120]⟩ [] 4 10 [] (by decide) rfl rfl rfl rfl).trans (by decide)

/-- C15 (confirmed): for every response code other than `REPL_VAL` and
`REPL_KVAL`, and every encoding, size and payload, `decode` returns the payload
octets unchanged, as a buffer, and emits nothing. -/
theorem C15_other_code_opaque (P : Protocol) (l : Bool) (code encoding size : Nat)
    (data : List Byte) (h1 : code ≠ P.REPL_VAL) (h2 : code ≠ P.REPL_KVAL) :
    decode P l code encoding size data = ⟨.ok (.buffer data), []⟩ :=
  decode_other P l code encoding size data h1 h2

/-- Witness of C15: code 5 with the octets `02 00 ff`. -/
theorem C15_other_code_opaque_witness :
    decode sampleProtocol false 5 2 8 [2, 0, 255] = ⟨.ok (.buffer [2, 0, 255]), []⟩ :=
  C15_other_code_opaque sampleProtocol false 5 2 8 [2, 0, 255] (by decide) (by decide)

/-! ### C18: `append_chunk` -/

theorem bufCopy_whole_front (src : List Byte) (m : Nat) :
    bufCopy src (newBuffer (src.length + m)) 0 0 src.length = src ++ newBuffer m := by
  unfold bufCopy newBuffer
  simp only [List.take_length, List.drop_zero, List.length_replicate, Nat.sub_zero,
    List.take_zero, List.nil_append, Nat.zero_add]
  rw [List.take_of_length_le (by omega)]
  simp

theorem bufCopy_whole_back (pre chunk : List Byte) :
    bufCopy chunk (pre ++ newBuffer chunk.length) pre.length 0 chunk.length = pre ++ chunk := by
  unfold bufCopy newBuffer
  simp

theorem append_chunk_buffer (c : Client) (chunk : List Byte) :
    append_chunk c chunk =
      { c with buffer := some (match c.buffer with
                                | none => chunk
                                | some buffer => buffer ++ chunk) } := by
  unfold append_chunk
  cases hb : c.buffer with
  | none => rfl
  | some buffer =>
    simp only []
    cases hc : c.bufferConcat with
    | true => simp [bufConcat]
    | false =>
      simp only [Bool.false_eq_true, if_false]
      rw [bufCopy_whole_front, bufCopy_whole_back]

/-- C18 (confirmed): for every client state and chunk, `append_chunk` leaves the
buffer equal to the chunk when the buffer was null and to the old buffer
followed by the chunk otherwise, changes nothing else, and does so whether
`Buffer.concat` is defined or the manual allocate-and-copy fallback runs. -/
theorem C18_append_chunk_concatenates (c : Client) (chunk : List Byte) :
    append_chunk c chunk =
      { c with buffer := some (match c.buffer with
                                | none => chunk
                                | some buffer => buffer ++ chunk) } ∧
    (append_chunk { c with bufferConcat := true } chunk).buffer
      = (append_chunk { c with bufferConcat := false } chunk).buffer := by
  refine ⟨append_chunk_buffer c chunk, ?_⟩
  rw [append_chunk_buffer, append_chunk_buffer]

/-! ### C19: no octet is lost -/

theorem iteration_short (P : Protocol) (c : Client) (buf : List Byte)
    (hb : c.buffer = some buf) (h : buf.length < 7) : iteration P c = .exit c := by
  unfold iteration
  simp only [hb, header_size]
  by_cases h0 : buf.length > 0
  · rw [if_neg (not_not.mpr h0), if_pos h]
  · rw [if_pos h0]

theorem frame_of_buffer (buf : List Byte) (h7 : 7 ≤ buf.length)
    (hlen : 7 + (byteAt buf 3 + 256 * byteAt buf 4 + 65536 * byteAt buf 5
              + 16777216 * byteAt buf 6) ≤ buf.length) :
    ∃ f : Frame, f.Valid ∧
      f.code = byteAt buf 0 + 256 * byteAt buf 1 ∧ f.encoding = byteAt buf 2 ∧
      f.payload.length = byteAt buf 3 + 256 * byteAt buf 4 + 65536 * byteAt buf 5
              + 16777216 * byteAt buf 6 ∧
      f.payload = (buf.drop 7).take (byteAt buf 3 + 256 * byteAt buf 4 + 65536 * byteAt buf 5
              + 16777216 * byteAt buf 6) ∧
      buf = f.bytes ++ buf.drop (7 + (byteAt buf 3 + 256 * byteAt buf 4 + 65536 * byteAt buf 5
              + 16777216 * byteAt buf 6)) := by
  match buf, h7 with
  | b0 :: b1 :: b2 :: b3 :: b4 :: b5 :: b6 :: t, _ =>
    have g0 := b0.isLt
    have g1 := b1.isLt
    have g2 := b2.isLt
    have g3 := b3.isLt
    have g4 := b4.isLt
    have g5 := b5.isLt
    have g6 := b6.isLt
    simp only [byteAt, List.getD_cons_zero, List.getD_cons_succ, List.length_cons] at hlen ⊢
    have hpl : (List.take (b3.val + 256 * b4.val + 65536 * b5.val + 16777216 * b6.val)
        (List.drop 7 (b0 :: b1 :: b2 :: b3 :: b4 :: b5 :: b6 :: t))).length
        = b3.val + 256 * b4.val + 65536 * b5.val + 16777216 * b6.val := by
      simp only [List.drop_succ_cons, List.drop_zero, List.length_take]
      omega
    refine ⟨⟨b0.val + 256 * b1.val, b2.val,
      (List.drop 7 (b0 :: b1 :: b2 :: b3 :: b4 :: b5 :: b6 :: t)).take
        (b3.val + 256 * b4.val + 65536 * b5.val + 16777216 * b6.val)⟩,
      ⟨by show b0.val + 256 * b1.val < 65536; omega, by show b2.val < 256; omega,
        by show List.length _ < 4294967296; rw [hpl]; omega⟩, rfl, rfl, hpl, rfl, ?_⟩
    simp only [Frame.bytes, hpl, u16le, u32le]
    have e0 : (Fin.ofNat ((b0.val + 256 * b1.val) % 256) : Byte) = b0 := by
      apply Fin.ext; rw [val_ofNat]; omega
    have e1 : (Fin.ofNat ((b0.val + 256 * b1.val) / 256 % 256) : Byte) = b1 := by
      apply Fin.ext; rw [val_ofNat]; omega
    have e2 : (Fin.ofNat b2.val : Byte) = b2 := by
      apply Fin.ext; rw [val_ofNat]; omega
    have e3 : (Fin.ofNat ((b3.val + 256 * b4.val + 65536 * b5.val + 16777216 * b6.val) % 256)
        : Byte) = b3 := by
      apply Fin.ext; rw [val_ofNat]; omega
    have e4 : (Fin.ofNat ((b3.val + 256 * b4.val + 65536 * b5.val + 16777216 * b6.val) / 256
        % 256) : Byte) = b4 := by
      apply Fin.ext; rw [val_ofNat]; omega
    have e5 : (Fin.ofNat ((b3.val + 256 * b4.val + 65536 * b5.val + 16777216 * b6.val) / 65536
        % 256) : Byte) = b5 := by
      apply Fin.ext; rw [val_ofNat]; omega
    have e6 : (Fin.ofNat ((b3.val + 256 * b4.val + 65536 * b5.val + 16777216 * b6.val)
        / 16777216 % 256) : Byte) = b6 := by
      apply Fin.ext; rw [val_ofNat]; omega
    rw [e0, e1, e2, e3, e4, e5, e6]
    simp only [List.cons_append, List.nil_append, List.drop_succ_cons, List.drop_zero,
      List.cons.injEq, true_and]
    rw [show 7 + (b3.val + 256 * b4.val + 65536 * b5.val + 16777216 * b6.val)
      = (b3.val + 256 * b4.val + 65536 * b5.val + 16777216 * b6.val) + 7 from by omega]
    simp only [List.drop_succ_cons]
    exact (List.take_append_drop _ t).symm

theorem handle_returned_frames (P : Protocol) : ∀ (fuel : Nat) (c c' : Client),
    handle_incoming_data P fuel c = some (.returned c') →
    ∃ (buf residual : List Byte) (frames : List Frame),
      c.buffer = some buf ∧ c'.buffer = some residual ∧
      buf = frames.flatMap Frame.bytes ++ residual ∧
      residual.length < header_size ∧
      (∀ f ∈ frames, f.Valid ∧
        ∃ v, (decode P c.errorListener f.code f.encoding f.payload.length f.payload).result
          = .ok v) ∧
      c'.callbacks = c.callbacks.drop frames.length := by
  intro fuel
  induction fuel with
  | zero => intro c c' h; simp [handle_incoming_data] at h
  | succ n ih =>
    intro c c' h
    rw [handle_incoming_data] at h
    cases hb : c.buffer with
    | none =>
      have : iteration P c = .throw .typeError c := by
        unfold iteration; simp only [hb]
      rw [this] at h
      simp at h
    | some buf =>
      by_cases h7 : buf.length < 7
      · rw [iteration_short P c buf hb h7] at h
        simp only [Option.some.injEq, Outcome.returned.injEq] at h
        subst h
        exact ⟨buf, buf, [], rfl, hb, by simp, h7, by simp, by simp⟩
      · by_cases hlen : 7 + (byteAt buf 3 + 256 * byteAt buf 4 + 65536 * byteAt buf 5
              + 16777216 * byteAt buf 6) ≤ buf.length
        · obtain ⟨f, hfv, hcode, henc, hplen, hpay, hbuf⟩ :=
            frame_of_buffer buf (by omega) hlen
          have hbuf' := hbuf
          rw [← hplen] at hbuf'
          rw [iteration_complete P c buf hb (by omega) hlen] at h
          simp only [] at h
          rw [← hpay, ← hcode, ← henc, ← hplen] at h
          cases hd : (decode P c.errorListener f.code f.encoding f.payload.length
              f.payload).result with
          | error e =>
            rw [hd] at h
            simp at h
          | ok v =>
            rw [hd] at h
            simp only [] at h
            by_cases hle : buf.length ≤ 7 + f.payload.length
            · rw [if_pos hle] at h
              simp only [Option.some.injEq, Outcome.returned.injEq] at h
              subst h
              have hnil : buf.drop (7 + f.payload.length) = [] := by
                apply List.drop_eq_nil_of_le; exact hle
              refine ⟨buf, [], [f], rfl, ?_, ?_, by simp [header_size], ?_, ?_⟩
              · simp [afterFrame, hnil]
              · rw [hnil] at hbuf'; simpa using hbuf'
              · intro g hg
                simp only [List.mem_singleton] at hg
                subst hg
                exact ⟨hfv, v, hd⟩
              · simp [afterFrame]
            · rw [if_neg hle] at h
              obtain ⟨buf1, residual, frames, hb1, hb2, hsplit, hres, hall, hcbs⟩ := ih _ c' h
              have hbuf1 : buf1 = buf.drop (7 + f.payload.length) := by
                simp only [afterFrame, Option.some.injEq] at hb1
                exact hb1.symm
              refine ⟨buf, residual, f :: frames, rfl, hb2, ?_, hres, ?_, ?_⟩
              · rw [List.flatMap_cons, List.append_assoc, ← hsplit, hbuf1]
                exact hbuf'
              · intro g hg
                rcases List.mem_cons.mp hg with rfl | hg
                · exact ⟨hfv, v, hd⟩
                · exact hall g hg
              · rw [hcbs]
                simp only [afterFrame, List.length_cons]
                cases c.callbacks with
                | nil => simp
                | cons p ps => simp
        · have hd : readUInt32LE buf 3 = .ok (byteAt buf 3 + 256 * byteAt buf 4
              + 65536 * byteAt buf 5 + 16777216 * byteAt buf 6) := by
            simp [readUInt32LE]; omega
          rw [iteration_incomplete P c buf _ hb (by omega) hd (by omega)] at h
          obtain ⟨buf1, residual, frames, hb1, hrest⟩ := ih c c' h
          rw [hb] at hb1
          simp only [Option.some.injEq] at hb1
          subst hb1
          exact ⟨buf, residual, frames, rfl, hrest⟩

theorem frame_bytes_inj (f g : Frame) (r1 r2 : List Byte) (hf : f.Valid) (hg : g.Valid)
    (h : f.bytes ++ r1 = g.bytes ++ r2) : f = g ∧ r1 = r2 := by
  obtain ⟨f1, f2, f3⟩ := Frame.header f hf r1
  obtain ⟨g1, g2, g3⟩ := Frame.header g hg r2
  rw [h] at f1 f2 f3
  have hcode : f.code = g.code := by rw [← f1, g1]
  have henc : f.encoding = g.encoding := by rw [← f2, g2]
  have hlen : f.payload.length = g.payload.length := by rw [← f3, g3]
  have hd := congrArg (List.drop 7) h
  rw [Frame.drop_header, Frame.drop_header] at hd
  obtain ⟨hp, hr⟩ := List.append_inj hd hlen
  refine ⟨?_, hr⟩
  cases f
  cases g
  simp only [Frame.mk.injEq]
  exact ⟨hcode, henc, hp⟩

theorem frames_unique : ∀ (frames1 frames2 : List Frame) (r1 r2 : List Byte),
    (∀ f ∈ frames1, f.Valid) → (∀ f ∈ frames2, f.Valid) →
    r1.length < 7 → r2.length < 7 →
    frames1.flatMap Frame.bytes ++ r1 = frames2.flatMap Frame.bytes ++ r2 →
    frames1 = frames2 ∧ r1 = r2 := by
  intro frames1
  induction frames1 with
  | nil =>
    intro frames2 r1 r2 _ _ h1 _ h
    cases frames2 with
    | nil => exact ⟨rfl, by simpa using h⟩
    | cons g gs =>
      have := congrArg List.length h
      simp [Frame.bytes_length] at this
      omega
  | cons f fs ih =>
    intro frames2 r1 r2 hv1 hv2 h1 h2 h
    cases frames2 with
    | nil =>
      have := congrArg List.length h
      simp [Frame.bytes_length] at this
      omega
    | cons g gs =>
      simp only [List.flatMap_cons, List.append_assoc] at h
      obtain ⟨hfg, hrest⟩ := frame_bytes_inj f g _ _ (hv1 f (List.mem_cons_self _ _))
        (hv2 g (List.mem_cons_self _ _)) h
      obtain ⟨hfs, hr⟩ := ih gs r1 r2 (fun x hx => hv1 x (List.mem_cons_of_mem _ hx))
        (fun x hx => hv2 x (List.mem_cons_of_mem _ hx)) h1 h2 hrest
      exact ⟨by rw [hfg, hfs], hr⟩

/-- C19 (confirmed): when `handle_incoming_data` returns, the initial buffer is
the concatenation, in order, of the frames it consumed (each a 7-octet header
followed by its payload, each decoded to a value) followed by the residual
buffer; the residual is shorter than a header, one entry of the callback queue
was taken per consumed frame, and the initial buffer splits in no other way
into frames and a residual shorter than a header.  No octet is lost, duplicated
or reordered. -/
theorem C19_consumed_frames_and_residual (P : Protocol) (fuel : Nat) (c c' : Client)
    (h : handle_incoming_data P fuel c = some (.returned c')) :
    ∃ (buf residual : List Byte) (frames : List Frame),
      c.buffer = some buf ∧ c'.buffer = some residual ∧
      buf = frames.flatMap Frame.bytes ++ residual ∧
      residual.length < header_size ∧
      (∀ f ∈ frames, f.Valid ∧
        ∃ v, (decode P c.errorListener f.code f.encoding f.payload.length f.payload).result
          = .ok v) ∧
      c'.callbacks = c.callbacks.drop frames.length ∧
      (∀ (frames2 : List Frame) (residual2 : List Byte),
        (∀ f ∈ frames2, f.Valid) → residual2.length < header_size →
        buf = frames2.flatMap Frame.bytes ++ residual2 →
        frames2 = frames ∧ residual2 = residual) := by
  obtain ⟨buf, residual, frames, h1, h2, h3, h4, h5, h6⟩ := handle_returned_frames P fuel c c' h
  refine ⟨buf, residual, frames, h1, h2, h3, h4, h5, h6, ?_⟩
  intro frames2 residual2 hv2 hr2 hsplit
  exact frames_unique frames2 frames residual2 residual hv2 (fun f hf => (h5 f hf).1) hr2 h4
    (by rw [← hsplit, ← h3])

/-- Witness of C19: two frames followed by three octets of a third. -/
theorem C19_consumed_frames_and_residual_witness :
    ∃ (buf residual : List Byte) (frames : List Frame),
      ({ Client.new true true with
          buffer := some [6, 0, 0, 1, 0, 0, 0, 104, 5, 0, 0, 0, 0, 0, 0, 6, 0, 0] } :
        Client).buffer = some buf ∧
      ({ Client.new true true with buffer := some [6, 0, 0] } : Client).buffer
        = some residual ∧
      buf = frames.flatMap Frame.bytes ++ residual ∧
      residual.length < header_size ∧
      (∀ f ∈ frames, f.Valid ∧
        ∃ v, (decode sampleProtocol
          ({ Client.new true true with
              buffer := some [6, 0, 0, 1, 0, 0, 0, 104, 5, 0, 0, 0, 0, 0, 0, 6, 0, 0] } :
            Client).errorListener f.code f.encoding f.payload.length f.payload).result
          = .ok v) ∧
      ({ Client.new true true with buffer := some [6, 0, 0] } : Client).callbacks
        = ({ Client.new true true with
              buffer := some [6, 0, 0, 1, 0, 0, 0, 104, 5, 0, 0, 0, 0, 0, 0, 6, 0, 0] } :
            Client).callbacks.drop frames.length ∧
      (∀ (frames2 : List Frame) (residual2 : List Byte),
        (∀ f ∈ frames2, f.Valid) → residual2.length < header_size →
        buf = frames2.flatMap Frame.bytes ++ residual2 →
        frames2 = frames ∧ residual2 = residual) :=
  C19_consumed_frames_and_residual sampleProtocol 3
    { Client.new true true with
      buffer := some [6, 0, 0, 1, 0, 0, 0, 104, 5, 0, 0, 0, 0, 0, 0, 6, 0, 0] }
    { Client.new true true with buffer := some [6, 0, 0] } (by decide)

/-! ### C20: requests queued without a callback -/

/-- C20 (counterexample): the head of the queue was queued without a callback
and the complete frame `06 00 02 00 00 00 00` arrives: `decode` throws and the
head entry is not removed. -/
theorem C20_counterexample :
    handle_incoming_data sampleProtocol 1
        { Client.new true true with
          buffer := some [6, 0, 2, 0, 0, 0, 0], callbacks := [⟨1, none⟩, ⟨2, some 11⟩] }
      = some (.threw .rangeError { Client.new true true with
          buffer := some [6, 0, 2, 0, 0, 0, 0], callbacks := [⟨1, none⟩, ⟨2, some 11⟩] }) := by
  decide

/-- C20 (amended): for every callback queue whose head entry was queued without
a callback (`cb` undefined), processing one complete frame that `decode` turns
into a value removes that head entry and invokes no callback: exactly one queue
entry is consumed, and the entry that followed it is the head for the next
frame. -/
theorem C20_head_without_callback_consumed (P : Protocol) (c : Client) (f : Frame)
    (rest : List Byte) (op : Nat) (pending : List Pending) (v : Value) (hv : f.Valid)
    (hb : c.buffer = some (f.bytes ++ rest)) (hq : c.callbacks = ⟨op, none⟩ :: pending)
    (hd : (decode P c.errorListener f.code f.encoding f.payload.length f.payload).result
      = .ok v) :
    iteration P c =
      (if rest = [] then Step.exit else Step.again)
        { c with
          buffer := some rest
          callbacks := pending
          emitted := c.emitted ++
            (decode P c.errorListener f.code f.encoding f.payload.length f.payload).emitted
          calls := c.calls } := by
  rw [iteration_frame P c f rest hv hb, hd]
  simp only [afterFrame, hq, List.head?_cons, List.tail_cons, List.append_nil]
  split <;> rfl

/-- Witness of C20 (amended): a text frame, then the octets of a second frame. -/
theorem C20_head_without_callback_consumed_witness :
    iteration sampleProtocol
        { Client.new true true with
          buffer := some ((⟨6, 0, [104]⟩ : Frame).bytes ++ [6, 0, 0, 1, 0, 0, 0, 105]),
          callbacks := [⟨1, none⟩, ⟨2, some 11⟩] }
      = .again { Client.new true true with
          buffer := some [6, 0, 0, 1, 0, 0, 0, 105], callbacks := [⟨2, some 11⟩] } :=
  (C20_head_without_callback_consumed sampleProtocol
    { Client.new true true with
      buffer := some ((⟨6, 0, [104]⟩ : Frame).bytes ++ [6, 0, 0, 1, 0, 0, 0, 105]),
      callbacks := [⟨1, none⟩, ⟨2, some 11⟩] }
    ⟨6, 0, [104]⟩ [6, 0, 0, 1, 0, 0, 0, 105] 1 [⟨2, some 11⟩] (.text "h") (by decide) rfl rfl
    (by decide)).trans (by decide)

/-- After a request queued without a callback, the second frame goes to the
second request. -/
theorem second_frame_to_second_request :
    handle_incoming_data sampleProtocol 2
        { Client.new true true with
          buffer := some [6, 0, 0, 1, 0, 0, 0, 104, 6, 0, 0, 1, 0, 0, 0, 105],
          callbacks := [⟨1, none⟩, ⟨2, some 11⟩] }
      = some (.returned { Client.new true true with
          buffer := some [], calls := [⟨11, none, .text "i"⟩] }) := by
  decide

/-! ### Membership in an object built by assignments -/

theorem mem_insertIndex (i : Nat) (k : String) (v : Value) (p : String × Value) :
    ∀ o : JSObject, p ∈ insertIndex i k v o ↔ p = (k, v) ∨ p ∈ o := by
  intro o
  induction o with
  | nil => simp [insertIndex]
  | cons q qs ih =>
    unfold insertIndex
    cases arrayIndex? q.1 with
    | none => simp
    | some j =>
      simp only []
      by_cases hj : j < i
      · rw [if_pos hj, List.mem_cons, ih, List.mem_cons]
        constructor
        · rintro (h | h | h)
          · exact Or.inr (Or.inl h)
          · exact Or.inl h
          · exact Or.inr (Or.inr h)
        · rintro (h | h | h)
          · exact Or.inr (Or.inl h)
          · exact Or.inl h
          · exact Or.inr (Or.inr h)
      · rw [if_neg hj]; simp

theorem mem_objSet (o : JSObject) (k : String) (v : Value) (hk : k ≠ "__proto__")
    (p : String × Value) :
    p ∈ objSet o k v ↔ p = (k, v) ∨ (p ∈ o ∧ p.1 ≠ k) := by
  unfold objSet
  rw [if_neg hk]
  by_cases hex : o.any (fun p => decide (p.1 = k)) = true
  · rw [if_pos hex]
    rw [List.any_eq_true] at hex
    obtain ⟨q, hq, hqk⟩ := hex
    simp only [decide_eq_true_eq] at hqk
    rw [List.mem_map]
    constructor
    · rintro ⟨r, hr, rfl⟩
      by_cases hrk : r.1 = k
      · rw [if_pos hrk]; exact Or.inl rfl
      · rw [if_neg hrk]; exact Or.inr ⟨hr, hrk⟩
    · rintro (h | ⟨h1, h2⟩)
      · exact ⟨q, hq, by rw [if_pos hqk, h]⟩
      · exact ⟨p, h1, by rw [if_neg h2]⟩
  · rw [if_neg hex]
    have hnone : ∀ q ∈ o, q.1 ≠ k := by
      intro q hq hqk
      apply hex
      rw [List.any_eq_true]
      exact ⟨q, hq, by simpa using hqk⟩
    cases arrayIndex? k with
    | none =>
      simp only [List.mem_append, List.mem_singleton]
      constructor
      · rintro (h | h)
        · exact Or.inr ⟨h, hnone p h⟩
        · exact Or.inl h
      · rintro (h | ⟨h, _⟩)
        · exact Or.inr h
        · exact Or.inl h
    | some i =>
      simp only [mem_insertIndex]
      constructor
      · rintro (h | h)
        · exact Or.inl h
        · exact Or.inr ⟨h, hnone p h⟩
      · rintro (h | ⟨h, _⟩)
        · exact Or.inl h
        · exact Or.inr h

theorem mem_objSet_imp (o : JSObject) (k : String) (v : Value) (p : String × Value)
    (h : p ∈ objSet o k v) : p = (k, v) ∨ p ∈ o := by
  by_cases hk : k = "__proto__"
  · right
    unfold objSet at h
    rw [if_pos hk] at h
    exact h
  · rcases (mem_objSet o k v hk p).mp h with h | ⟨h, _⟩
    · exact Or.inl h
    · exact Or.inr h

theorem mem_foldl_objSet : ∀ (kvs : List (String × Value)) (o : JSObject) (p : String × Value),
    p ∈ kvs.foldl (fun o kv => objSet o kv.1 kv.2) o → p ∈ o ∨ p ∈ kvs := by
  intro kvs
  induction kvs with
  | nil => intro o p h; exact Or.inl h
  | cons kv kvs ih =>
    intro o p h
    rw [List.foldl_cons] at h
    rcases ih _ p h with h | h
    · rcases mem_objSet_imp o kv.1 kv.2 p h with h | h
      · right; rw [h]; exact List.mem_cons_self _ _
      · exact Or.inl h
    · exact Or.inr (List.mem_cons_of_mem _ h)

theorem mem_zip_forall₂ {R : Entry → Value → Prop} : ∀ (es : List Entry) (vals : List Value),
    List.Forall₂ R es vals → ∀ (k : String) (v : Value),
    (k, v) ∈ (es.map (fun e => bufToString e.key)).zip vals →
    ∃ e ∈ es, k = bufToString e.key ∧ R e v := by
  intro es vals h
  induction h with
  | nil => intro k v hm; simp at hm
  | @cons e w es' vs' hr _ ih =>
    intro k v hm
    simp only [List.map_cons, List.zip_cons_cons, List.mem_cons, Prod.mk.injEq] at hm
    rcases hm with ⟨h1, h2⟩ | hm
    · exact ⟨e, List.mem_cons_self _ _, h1, by rw [h2]; exact hr⟩
    · obtain ⟨e', he', hk, hR⟩ := ih k v hm
      exact ⟨e', List.mem_cons_of_mem _ he', hk, hR⟩

theorem decodeVal_scalar (P : Protocol) (l : Bool) (encoding size : Nat) (data : List Byte)
    (v : Value) (h : (decodeVal P l encoding size data).result = .ok v) :
    (∃ s, v = .text s) ∨ (∃ n, v = .number n) ∨ v = .undefined := by
  unfold decodeVal at h
  by_cases h1 : encoding = P.GB_ENC_PLAIN
  · rw [if_pos h1] at h
    simp only [Except.ok.injEq] at h
    exact Or.inl ⟨_, h.symm⟩
  · rw [if_neg h1] at h
    by_cases h2 : encoding = P.GB_ENC_NUMBER
    · rw [if_pos h2] at h
      simp only [] at h
      by_cases h3 : size = 8
      · rw [if_pos h3] at h
        cases r0 : readUInt32LE data 0 with
        | error e => rw [r0] at h; simp at h
        | ok w0 =>
          rw [r0] at h
          simp only [] at h
          cases r1 : readUInt32LE data 4 with
          | error e => rw [r1] at h; simp at h
          | ok w1 =>
            rw [r1] at h
            simp only [] at h
            by_cases hb : ¬ bit31 w1 = true
            · rw [if_pos hb] at h
              simp only [Except.ok.injEq] at h
              exact Or.inr (Or.inl ⟨_, h.symm⟩)
            · rw [if_neg hb] at h
              simp only [Except.ok.injEq] at h
              exact Or.inr (Or.inl ⟨_, h.symm⟩)
      · rw [if_neg h3] at h
        cases r0 : readInt32LE data 0 with
        | error e => rw [r0] at h; simp at h
        | ok n =>
          rw [r0] at h
          simp only [Except.ok.injEq] at h
          exact Or.inr (Or.inl ⟨_, h.symm⟩)
    · rw [if_neg h2] at h
      unfold emitError at h
      cases l with
      | true =>
        simp only [if_true, Except.ok.injEq] at h
        exact Or.inr (Or.inr h.symm)
      | false => simp at h

/-! ### C16: duplicate keys -/

theorem objSet_keys_nodup (o : JSObject) (k : String) (v : Value)
    (h : (o.map Prod.fst).Nodup) : ((objSet o k v).map Prod.fst).Nodup := by
  unfold objSet
  by_cases hk : k = "__proto__"
  · rw [if_pos hk]; exact h
  · rw [if_neg hk]
    by_cases hex : o.any (fun p => decide (p.1 = k)) = true
    · rw [if_pos hex]
      have : (o.map (fun p => if p.1 = k then (k, v) else p)).map Prod.fst = o.map Prod.fst := by
        rw [List.map_map]
        apply List.map_congr_left
        intro p _
        simp only [Function.comp]
        split
        · rename_i hp; exact hp.symm
        · rfl
      rw [this]; exact h
    · rw [if_neg hex]
      have hnone : k ∉ o.map Prod.fst := by
        intro hm
        obtain ⟨q, hq, hqk⟩ := List.mem_map.mp hm
        apply hex
        rw [List.any_eq_true]
        exact ⟨q, hq, by simpa using hqk⟩
      cases hi : arrayIndex? k with
      | none =>
        simp only [List.map_append, List.map_cons, List.map_nil]
        rw [List.nodup_append]
        refine ⟨h, by simp, ?_⟩
        intro a ha hb
        simp only [List.mem_singleton] at hb
        subst hb
        exact hnone ha
      | some i =>
        simp only []
        have hperm : List.Perm (insertIndex i k v o) ((k, v) :: o) := by
          clear hnone hex h
          induction o with
          | nil => simp [insertIndex]
          | cons q qs ih =>
            unfold insertIndex
            cases arrayIndex? q.1 with
            | none => exact List.Perm.refl _
            | some j =>
              simp only []
              by_cases hj : j < i
              · rw [if_pos hj]
                exact (List.Perm.cons q ih).trans (List.Perm.swap _ _ _)
              · rw [if_neg hj]
        rw [(hperm.map Prod.fst).nodup_iff]
        simp only [List.map_cons, List.nodup_cons]
        exact ⟨hnone, h⟩

theorem foldl_objSet_spec : ∀ (kvs : List (String × Value)) (o : JSObject),
    (o.map Prod.fst).Nodup → (∀ kv ∈ kvs, kv.1 ≠ "__proto__") →
    ((kvs.foldl (fun o kv => objSet o kv.1 kv.2) o).map Prod.fst).Nodup ∧
    ∀ p : String × Value, p ∈ kvs.foldl (fun o kv => objSet o kv.1 kv.2) o ↔
      (lastValue kvs p.1 = some p.2 ∨ (lastValue kvs p.1 = none ∧ p ∈ o)) := by
  intro kvs
  induction kvs with
  | nil =>
    intro o h _
    exact ⟨h, fun p => by simp [lastValue]⟩
  | cons kv kvs ih =>
    intro o h hk
    have hkv : kv.1 ≠ "__proto__" := hk kv (List.mem_cons_self _ _)
    obtain ⟨h1, h2⟩ := ih (objSet o kv.1 kv.2) (objSet_keys_nodup o kv.1 kv.2 h)
      (fun q hq => hk q (List.mem_cons_of_mem _ hq))
    rw [List.foldl_cons]
    refine ⟨h1, fun p => ?_⟩
    rw [h2 p, mem_objSet o kv.1 kv.2 hkv p]
    simp only [lastValue]
    cases hlv : lastValue kvs p.1 with
    | some w => simp
    | none =>
      simp only [false_or, true_and, reduceCtorEq]
      by_cases hpk : kv.1 = p.1
      · rw [if_pos hpk]
        simp only [Option.some.injEq, reduceCtorEq, false_and, or_false]
        constructor
        · rintro (h | ⟨_, h⟩)
          · rw [h]
          · exact absurd hpk.symm h
        · intro h
          left
          exact Prod.ext hpk.symm h.symm
      · rw [if_neg hpk]
        simp only [reduceCtorEq, false_or, true_and]
        constructor
        · rintro (h | ⟨h, _⟩)
          · exact absurd (by rw [h]) hpk
          · exact h
        · intro h
          exact Or.inr ⟨h, fun e => hpk e.symm⟩

theorem objGet_eq_some (o : JSObject) (h : (o.map Prod.fst).Nodup) (k : String) (v : Value)
    (hm : (k, v) ∈ o) : objGet o k = some v := by
  induction o with
  | nil => simp at hm
  | cons q qs ih =>
    rw [List.map_cons, List.nodup_cons] at h
    unfold objGet
    rw [List.find?_cons]
    rcases List.mem_cons.mp hm with hq | hq
    · subst hq
      simp
    · have hne : q.1 ≠ k := by
        intro e
        apply h.1
        rw [e]
        exact List.mem_map.mpr ⟨(k, v), hq, rfl⟩
      simp only [hne, decide_False]
      exact ih h.2 hq

theorem objGet_eq_none (o : JSObject) (k : String) (hm : ∀ p ∈ o, p.1 ≠ k) :
    objGet o k = none := by
  unfold objGet
  rw [Option.map_eq_none', List.find?_eq_none]
  intro p hp
  simpa using hm p hp

theorem lastValue_isSome_iff : ∀ (kvs : List (String × Value)) (k : String),
    (∃ v, lastValue kvs k = some v) ↔ k ∈ kvs.map Prod.fst := by
  intro kvs k
  induction kvs with
  | nil => simp [lastValue]
  | cons kv kvs ih =>
    simp only [lastValue, List.map_cons, List.mem_cons]
    cases hlv : lastValue kvs k with
    | some w =>
      have : k ∈ kvs.map Prod.fst := ih.mp ⟨w, hlv⟩
      simp [this]
    | none =>
      have : k ∉ kvs.map Prod.fst := fun hm => by
        obtain ⟨v, hv⟩ := ih.mpr hm
        rw [hlv] at hv
        exact Option.noConfusion hv
      by_cases hk : kv.1 = k
      · simp [hk]
      · simp only [hk, if_false, reduceCtorEq, exists_false, false_iff, not_or]
        exact ⟨fun e => hk e.symm, this⟩

/-- C16 (counterexample): a well-formed payload in which the key `__proto__`
occurs in two entries decodes to a map without any pair: it holds no value for
that key, and has zero pairs for one distinct key. -/
theorem C16_counterexample :
    decode sampleProtocol true sampleProtocol.REPL_KVAL 0 0
        (mapPayload [⟨[95, 95, 112, 114, 111, 116, 111, 95, 95], 0, [120]⟩,
                     ⟨[95, 95, 112, 114, 111, 116, 111, 95, 95], 0, [121]⟩])
      = ⟨.ok (.object []), []⟩ := by
  decide

/-- C16 (amended): for every well-formed map payload in which no key is
`__proto__` and whose values the scalar path decodes, the decoded map holds for
every key the value of the last entry with that key (a later duplicate
overwrites an earlier one), and it has as many pairs as there are distinct
keys. -/
theorem C16_last_duplicate_wins (P : Protocol) (l : Bool) (encoding size : Nat)
    (es : List Entry) (vals : List Value)
    (hP : P.REPL_KVAL ≠ P.REPL_VAL) (hN : es.length < 4294967296)
    (hv : ∀ e ∈ es, e.Valid)
    (hproto : ∀ e ∈ es, bufToString e.key ≠ "__proto__")
    (hdec : List.Forall₂
      (fun e v => (decode P l P.REPL_VAL e.enc e.value.length e.value).result = .ok v) es vals) :
    ∃ props : JSObject,
      (decode P l P.REPL_KVAL encoding size (mapPayload es)).result = .ok (.object props) ∧
      (∀ k, objGet props k = lastValue ((es.map (fun e => bufToString e.key)).zip vals) k) ∧
      props.length = (es.map (fun e => bufToString e.key)).dedup.length := by
  have hlen : es.length = vals.length := hdec.length_eq
  have hdec' : List.Forall₂
      (fun e v => (decodeVal P l e.enc e.value.length e.value).result = .ok v) es vals := by
    refine List.Forall₂.imp ?_ hdec
    intro e v h
    rw [decode_REPL_VAL] at h
    exact h
  have hcount : readUInt32LE (mapPayload es) 0 = .ok es.length := by
    have := readUInt32LE_u32le es.length (es.flatMap Entry.bytes)
    rw [Nat.mod_eq_of_lt hN] at this
    exact this
  have hall := decodeEntries_all P l [] es vals (u32le es.length) [] [] hv hdec'
  simp only [List.append_nil, u32le_length] at hall
  have hkeys : ((es.map (fun e => bufToString e.key)).zip vals).map Prod.fst
      = es.map (fun e => bufToString e.key) := by
    rw [List.map_fst_zip]
    simp [hlen]
  obtain ⟨hnd, hmem⟩ := foldl_objSet_spec ((es.map (fun e => bufToString e.key)).zip vals) []
    (by simp) (by
      intro kv hkv
      have hm : kv.1 ∈ es.map (fun e => bufToString e.key) := (List.of_mem_zip hkv).1
      obtain ⟨e, he, hk⟩ := List.mem_map.mp hm
      rw [← hk]
      exact hproto e he)
  refine ⟨((es.map (fun e => bufToString e.key)).zip vals).foldl
    (fun o kv => objSet o kv.1 kv.2) [], ?_, ?_, ?_⟩
  · unfold decode
    rw [if_neg hP, if_pos rfl]
    simp only [hcount]
    unfold mapPayload
    exact hall
  · intro k
    cases hlv : lastValue ((es.map (fun e => bufToString e.key)).zip vals) k with
    | some v =>
      exact objGet_eq_some _ hnd k v ((hmem (k, v)).mpr (Or.inl hlv))
    | none =>
      apply objGet_eq_none
      intro p hp hpk
      rcases (hmem p).mp hp with h | ⟨_, h⟩
      · rw [hpk, hlv] at h
        exact Option.noConfusion h
      · simp at h
  · rw [← List.card_toFinset, ← List.length_map _ Prod.fst, ← List.toFinset_card_of_nodup hnd]
    congr 1
    ext k
    simp only [List.mem_toFinset]
    have hiff : k ∈ es.map (fun e => bufToString e.key) ↔
        ∃ v, lastValue ((es.map (fun e => bufToString e.key)).zip vals) k = some v := by
      rw [lastValue_isSome_iff, hkeys]
    rw [hiff]
    constructor
    · intro hk
      obtain ⟨p, hp, hpk⟩ := List.mem_map.mp hk
      rcases (hmem p).mp hp with h | ⟨_, h⟩
      · exact ⟨p.2, by rw [← hpk]; exact h⟩
      · simp at h
    · rintro ⟨v, hv⟩
      exact List.mem_map.mpr ⟨(k, v), (hmem (k, v)).mpr (Or.inl hv), rfl⟩

/-- Witness of C16 (amended): the key `a` twice, around the key `b`. -/
theorem C16_last_duplicate_wins_witness :
    ∃ props : JSObject,
      (decode sampleProtocol true sampleProtocol.REPL_KVAL 0 0
        (mapPayload [⟨[97], 0, [120]⟩, ⟨[98], 0, [121]⟩, ⟨[97], 0, [122]⟩])).result
        = .ok (.object props) ∧
      (∀ k, objGet props k = lastValue
        ((([⟨[97], 0, [120]⟩, ⟨[98], 0, [121]⟩, ⟨[97], 0, [122]⟩] : List Entry).map
          (fun e => bufToString e.key)).zip [.text "x", .text "y", .text "z"]) k) ∧
      props.length = (([⟨[97], 0, [120]⟩, ⟨[98], 0, [121]⟩, ⟨[97], 0, [122]⟩] : List Entry).map
          (fun e => bufToString e.key)).dedup.length :=
  C16_last_duplicate_wins sampleProtocol true 0 0
    [⟨[97], 0, [120]⟩, ⟨[98], 0, [121]⟩, ⟨[97], 0, [122]⟩] [.text "x", .text "y", .text "z"]
    (by decide) (by decide) (by decide) (by decide)
    (List.Forall₂.cons (by decide) (List.Forall₂.cons (by decide)
      (List.Forall₂.cons (by decide) List.Forall₂.nil)))

/-- The map of the payload `a ↦ x, b ↦ y, a ↦ z`: `a` keeps its place and holds
the later value. -/
theorem map_duplicate_key_example :
    decode sampleProtocol true sampleProtocol.REPL_KVAL 0 0
        (mapPayload [⟨[97], 0, [120]⟩, ⟨[98], 0, [121]⟩, ⟨[97], 0, [122]⟩])
      = ⟨.ok (.object [("a", .text "z"), ("b", .text "y")]), []⟩ := by
  decide

/-! ### C11: payloads cut short -/

theorem readUInt32LE_out (B : List Byte) (off : Nat) (h : B.length < off + 4) :
    readUInt32LE B off = .error .rangeError := by
  unfold readUInt32LE
  rw [if_neg (by omega)]

theorem readUInt8_out (B : List Byte) (off : Nat) (h : B.length < off + 1) :
    readUInt8 B off = .error .rangeError := by
  unfold readUInt8
  rw [if_neg (by omega)]

theorem bufCopy_partial (B pre part : List Byte) (off stop vsize : Nat)
    (hB : B = pre ++ part) (ho : off = pre.length) (hs : stop = off + vsize)
    (hp : part.length ≤ vsize) :
    bufCopy B (newBuffer vsize) 0 off stop = part ++ newBuffer (vsize - part.length) := by
  subst hB ho hs
  unfold bufCopy newBuffer
  have h1 : ((pre ++ part).take (pre.length + vsize)).drop pre.length = part := by
    rw [List.take_of_length_le (by simp; omega), List.drop_left]
  simp only [h1, List.length_replicate, Nat.sub_zero, List.take_zero, List.nil_append,
    Nat.zero_add]
  rw [List.take_of_length_le hp]
  simp

theorem decodeEntries_prefix (P : Protocol) (l : Bool) (post : List Byte) (m : Nat) :
    ∀ (es : List Entry) (vals : List Value) (pre : List Byte) (obj : JSObject)
      (em : List String),
    (∀ e ∈ es, e.Valid) →
    List.Forall₂ (fun e v => (decodeVal P l e.enc e.value.length e.value).result = .ok v)
      es vals →
    ∃ em', decodeEntries P l (pre ++ (es.flatMap Entry.bytes ++ post)) (es.length + m)
        pre.length obj em
      = decodeEntries P l (pre ++ (es.flatMap Entry.bytes ++ post)) m
          (pre.length + (es.flatMap Entry.bytes).length)
          (((es.map (fun e => bufToString e.key)).zip vals).foldl
            (fun o kv => objSet o kv.1 kv.2) obj) em' := by
  intro es
  induction es with
  | nil =>
    intro vals pre obj em _ hdec
    cases hdec
    exact ⟨em, by simp⟩
  | cons e es ih =>
    intro vals pre obj em hv hdec
    cases hdec with
    | @cons _ v _ vs hd htl =>
      have hB : pre ++ ((e :: es).flatMap Entry.bytes ++ post)
          = pre ++ (e.bytes ++ (es.flatMap Entry.bytes ++ post)) := by simp
      have hn : (e :: es).length + m = (es.length + m) + 1 := by simp; omega
      rw [hB, hn, decodeEntries_step P l pre _ e (hv e (List.mem_cons_self _ _)), hd]
      simp only []
      have hB2 : pre ++ (e.bytes ++ (es.flatMap Entry.bytes ++ post))
          = (pre ++ e.bytes) ++ (es.flatMap Entry.bytes ++ post) := by simp
      have hl : pre.length + e.bytes.length = (pre ++ e.bytes).length := by simp
      obtain ⟨em', h⟩ := ih vs (pre ++ e.bytes)
        (objSet obj (bufToString e.key) v)
        (em ++ (decodeVal P l e.enc e.value.length e.value).emitted)
        (fun g hg => hv g (List.mem_cons_of_mem _ hg)) htl
      refine ⟨em', ?_⟩
      rw [hB2, hl, h]
      simp [Nat.add_assoc]

theorem decodeEntries_cut (P : Protocol) (l : Bool) (pre : List Byte) (cut : Cut)
    (hc : cut.Valid) (k : Nat) (obj : JSObject) (em : List String) :
    (decodeEntries P l (pre ++ cut.bytes) (k + 1) pre.length obj em).result =
      (match cut with
       | .atValue key enc vsize part =>
         match (decodeVal P l enc vsize (part ++ newBuffer (vsize - part.length))).result with
         | .error e => .error e
         | .ok v => if k = 0 then .ok (.object (objSet obj (bufToString key) v))
                    else .error .rangeError
       | _ => .error .rangeError) := by
  cases cut with
  | atKeyLength tail =>
    have hc' : tail.length < 4 := hc
    rw [decodeEntries, readUInt32LE_out _ _ (by simp [Cut.bytes]; omega)]
  | atKey klen part =>
    obtain ⟨h1, h2⟩ : klen < 4294967296 ∧ part.length ≤ klen := hc
    have r1 : readUInt32LE (pre ++ (Cut.atKey klen part).bytes) pre.length = .ok klen := by
      have := readUInt32LE_at (pre ++ (Cut.atKey klen part).bytes) pre part klen pre.length
        (by simp [Cut.bytes]) rfl
      rw [Nat.mod_eq_of_lt h1] at this
      exact this
    rw [decodeEntries]
    simp only [r1]
    rw [readUInt8_out _ _ (by simp [Cut.bytes, u32le_length]; omega)]
  | atValueSize key enc tail =>
    obtain ⟨h1, h2, h3⟩ : key.length < 4294967296 ∧ enc < 256 ∧ tail.length < 4 := hc
    have r1 : readUInt32LE (pre ++ (Cut.atValueSize key enc tail).bytes) pre.length
        = .ok key.length := by
      have := readUInt32LE_at (pre ++ (Cut.atValueSize key enc tail).bytes) pre
        (key ++ [Fin.ofNat enc] ++ tail) key.length pre.length (by simp [Cut.bytes]) rfl
      rw [Nat.mod_eq_of_lt h1] at this
      exact this
    have r2 : readUInt8 (pre ++ (Cut.atValueSize key enc tail).bytes)
        (pre.length + 4 + key.length) = .ok enc := by
      have := readUInt8_at (pre ++ (Cut.atValueSize key enc tail).bytes)
        (pre ++ u32le key.length ++ key) tail (Fin.ofNat enc) (pre.length + 4 + key.length)
        (by simp [Cut.bytes]) (by simp [u32le_length]; omega)
      rw [val_ofNat, Nat.mod_eq_of_lt h2] at this
      exact this
    rw [decodeEntries]
    simp only [r1, r2]
    rw [readUInt32LE_out _ _ (by simp [Cut.bytes, u32le_length]; omega)]
  | atValue key enc vsize part =>
    obtain ⟨h1, h2, h3, h4⟩ :
      key.length < 4294967296 ∧ enc < 256 ∧ vsize < 4294967296 ∧ part.length < vsize := hc
    have r1 : readUInt32LE (pre ++ (Cut.atValue key enc vsize part).bytes) pre.length
        = .ok key.length := by
      have := readUInt32LE_at (pre ++ (Cut.atValue key enc vsize part).bytes) pre
        (key ++ [Fin.ofNat enc] ++ u32le vsize ++ part) key.length pre.length
        (by simp [Cut.bytes]) rfl
      rw [Nat.mod_eq_of_lt h1] at this
      exact this
    have r0 : bufToStringRange (pre ++ (Cut.atValue key enc vsize part).bytes) (pre.length + 4)
        (pre.length + 4 + key.length) = bufToString key := by
      unfold bufToStringRange
      rw [slice_at (pre ++ (Cut.atValue key enc vsize part).bytes) (pre ++ u32le key.length) key
        ([Fin.ofNat enc] ++ u32le vsize ++ part) _ _
        (by simp [Cut.bytes]) (by simp [u32le_length]) rfl]
    have r2 : readUInt8 (pre ++ (Cut.atValue key enc vsize part).bytes)
        (pre.length + 4 + key.length) = .ok enc := by
      have := readUInt8_at (pre ++ (Cut.atValue key enc vsize part).bytes)
        (pre ++ u32le key.length ++ key) (u32le vsize ++ part) (Fin.ofNat enc)
        (pre.length + 4 + key.length)
        (by simp [Cut.bytes]) (by simp [u32le_length]; omega)
      rw [val_ofNat, Nat.mod_eq_of_lt h2] at this
      exact this
    have r3 : readUInt32LE (pre ++ (Cut.atValue key enc vsize part).bytes)
        (pre.length + 4 + key.length + 1) = .ok vsize := by
      have := readUInt32LE_at (pre ++ (Cut.atValue key enc vsize part).bytes)
        (pre ++ u32le key.length ++ key ++ [Fin.ofNat enc]) part vsize
        (pre.length + 4 + key.length + 1)
        (by simp [Cut.bytes]) (by simp [u32le_length]; omega)
      rw [Nat.mod_eq_of_lt h3] at this
      exact this
    have r4 : bufCopy (pre ++ (Cut.atValue key enc vsize part).bytes) (newBuffer vsize) 0
        (pre.length + 4 + key.length + 1 + 4) (pre.length + 4 + key.length + 1 + 4 + vsize)
        = part ++ newBuffer (vsize - part.length) :=
      bufCopy_partial _ (pre ++ u32le key.length ++ key ++ [Fin.ofNat enc] ++ u32le vsize)
        part _ _ vsize (by simp [Cut.bytes]) (by simp [u32le_length]; omega) rfl (by omega)
    rw [decodeEntries]
    simp only [r1, r0, r2, r3, r4]
    cases (decodeVal P l enc vsize (part ++ newBuffer (vsize - part.length))).result with
    | error e => rfl
    | ok v =>
      simp only []
      cases k with
      | zero => simp [decodeEntries]
      | succ j =>
        rw [decodeEntries, readUInt32LE_out _ _ (by simp [Cut.bytes, u32le_length]; omega)]
        simp

theorem decode_cut_payload (P : Protocol) (l : Bool) (encoding size : Nat)
    (count : Nat) (es : List Entry) (vals : List Value) (cut : Cut)
    (hP : P.REPL_KVAL ≠ P.REPL_VAL) (hcount : es.length < count) (hN : count < 4294967296)
    (hv : ∀ e ∈ es, e.Valid) (hc : cut.Valid)
    (hdec : List.Forall₂
      (fun e v => (decodeVal P l e.enc e.value.length e.value).result = .ok v) es vals) :
    (decode P l P.REPL_KVAL encoding size (cutPayload count es cut)).result =
      (match cut with
       | .atValue key enc vsize part =>
         match (decodeVal P l enc vsize (part ++ newBuffer (vsize - part.length))).result with
         | .error e => .error e
         | .ok v =>
           if count = es.length + 1 then
             .ok (.object (objSet (((es.map (fun e => bufToString e.key)).zip vals).foldl
               (fun o kv => objSet o kv.1 kv.2) []) (bufToString key) v))
           else .error .rangeError
       | _ => .error .rangeError) := by
  obtain ⟨k, hk⟩ : ∃ k, count = es.length + (k + 1) := ⟨count - es.length - 1, by omega⟩
  have hread : readUInt32LE (cutPayload count es cut) 0 = .ok count := by
    have := readUInt32LE_u32le count (es.flatMap Entry.bytes ++ cut.bytes)
    rw [Nat.mod_eq_of_lt hN] at this
    exact this
  obtain ⟨em', hpre⟩ := decodeEntries_prefix P l cut.bytes (k + 1) es vals (u32le count) [] []
    hv hdec
  unfold decode
  rw [if_neg hP, if_pos rfl]
  simp only [hread]
  unfold cutPayload
  rw [hk] at hpre ⊢
  rw [u32le_length] at hpre
  rw [hpre]
  have hB : u32le (es.length + (k + 1)) ++ (es.flatMap Entry.bytes ++ cut.bytes)
      = (u32le (es.length + (k + 1)) ++ es.flatMap Entry.bytes) ++ cut.bytes := by simp
  have hl : 4 + (es.flatMap Entry.bytes).length
      = (u32le (es.length + (k + 1)) ++ es.flatMap Entry.bytes).length := by
    simp [u32le_length]
  rw [hB, hl, decodeEntries_cut P l _ cut hc k]
  have hk0 : (es.length + (k + 1) = es.length + 1) ↔ k = 0 := by omega
  simp only [hk0]
  cases cut <;> rfl

/-- C11 (counterexample): the payload `01 00 00 00` (one entry declared, none
present) makes `decode` throw the `RangeError` of an out-of-range read; the
payload declaring one entry `a` of 3 value octets and holding only the octet
`78` is decoded to a map whose value is made of that octet and two octets that
are not in the payload. -/
theorem C11_counterexample :
    decode sampleProtocol true sampleProtocol.REPL_KVAL 0 4 [1, 0, 0, 0]
      = ⟨.error .rangeError, []⟩ ∧
    decode sampleProtocol true sampleProtocol.REPL_KVAL 0 14
        [1, 0, 0, 0, 1, 0, 0, 0, 97, 0, 3, 0, 0, 0, 120]
      = ⟨.ok (.object [("a", .text (bufToString [120, 0, 0]))]), []⟩ := by
  decide

/-- C11 (amended): `decode` reports no decode error of its own.  For a map
payload shorter than the 4-octet count it throws the `RangeError` of the
out-of-range read.  For a payload that declares more entries than it holds and
stops short after complete entries whose values decode: it throws that
`RangeError` when the octets stop in a key length or value size field, in a key
or before its encoding octet, or in the value of an entry that is not the last
one declared; when they stop in the value of the last declared entry, that
value is decoded from the octets present followed by the fill of the newly
allocated buffer, and a map holding it is returned (or the exception of that
scalar decoding is thrown). -/
theorem C11_cut_payload_outcome (P : Protocol) (l : Bool) (encoding size : Nat)
    (data : List Byte) (count : Nat) (es : List Entry) (vals : List Value) (cut : Cut)
    (hP : P.REPL_KVAL ≠ P.REPL_VAL) (hshort : data.length < 4)
    (hcount : es.length < count) (hN : count < 4294967296)
    (hv : ∀ e ∈ es, e.Valid) (hc : cut.Valid)
    (hdec : List.Forall₂
      (fun e v => (decode P l P.REPL_VAL e.enc e.value.length e.value).result = .ok v) es vals) :
    decode P l P.REPL_KVAL encoding size data = ⟨.error .rangeError, []⟩ ∧
    (decode P l P.REPL_KVAL encoding size (cutPayload count es cut)).result =
      (match cut with
       | .atValue key enc vsize part =>
         match (decode P l P.REPL_VAL enc vsize
            (part ++ newBuffer (vsize - part.length))).result with
         | .error e => .error e
         | .ok v =>
           if count = es.length + 1 then
             .ok (.object (objSet (((es.map (fun e => bufToString e.key)).zip vals).foldl
               (fun o kv => objSet o kv.1 kv.2) []) (bufToString key) v))
           else .error .rangeError
       | _ => .error .rangeError) := by
  have hdec' : List.Forall₂
      (fun e v => (decodeVal P l e.enc e.value.length e.value).result = .ok v) es vals := by
    refine List.Forall₂.imp ?_ hdec
    intro e v h
    rw [decode_REPL_VAL] at h
    exact h
  refine ⟨?_, ?_⟩
  · unfold decode
    rw [if_neg hP, if_pos rfl]
    simp only [readUInt32LE_out data 0 (by omega)]
  · rw [decode_cut_payload P l encoding size count es vals cut hP hcount hN hv hc hdec']
    cases cut with
    | atValue key enc vsize part => simp only [decode_REPL_VAL]
    | atKeyLength tail => rfl
    | atKey klen part => rfl
    | atValueSize key enc tail => rfl

/-- Witness of C11 (amended): a payload of two octets; and the payload that
declares two entries, holds the entry `a ↦ "x"` and stops in the key of the
second. -/
theorem C11_cut_payload_outcome_witness :
    decode sampleProtocol true sampleProtocol.REPL_KVAL 0 2 [1, 0]
      = ⟨.error .rangeError, []⟩ ∧
    (decode sampleProtocol true sampleProtocol.REPL_KVAL 0 2
        (cutPayload 2 [⟨[97], 0, [120]⟩] (.atKey 5 [98, 99]))).result
      = .error .rangeError :=
  C11_cut_payload_outcome sampleProtocol true 0 2 [1, 0] 2 [⟨[97], 0, [120]⟩] [.text "x"]
    (.atKey 5 [98, 99]) (by decide) (by decide) (by decide) (by decide) (by decide) (by decide)
    (List.Forall₂.cons (by decide) List.Forall₂.nil)

/-- A payload that stops in the value of its last declared entry: the value is
padded to the declared size. -/
theorem cut_value_padded :
    (decode sampleProtocol true sampleProtocol.REPL_KVAL 0 0
        (cutPayload 1 [] (.atValue [97] 2 4 [1]))).result
      = .ok (.object [("a", .number 1)]) := by
  decide

/-! ### C17: the values of a map -/

theorem foldl_objSet_mem : ∀ (kvs : List (String × Value)) (o : JSObject),
    (o.map Prod.fst).Nodup →
    ((kvs.foldl (fun o kv => objSet o kv.1 kv.2) o).map Prod.fst).Nodup ∧
    ∀ p : String × Value, p ∈ kvs.foldl (fun o kv => objSet o kv.1 kv.2) o ↔
      ((p.1 ≠ "__proto__" ∧ lastValue kvs p.1 = some p.2) ∨
        ((p.1 = "__proto__" ∨ lastValue kvs p.1 = none) ∧ p ∈ o)) := by
  intro kvs
  induction kvs with
  | nil =>
    intro o h
    refine ⟨h, fun p => ?_⟩
    simp [lastValue]
  | cons kv kvs ih =>
    intro o h
    obtain ⟨h1, h2⟩ := ih (objSet o kv.1 kv.2) (objSet_keys_nodup o kv.1 kv.2 h)
    rw [List.foldl_cons]
    refine ⟨h1, fun p => ?_⟩
    rw [h2 p]
    by_cases hkv : kv.1 = "__proto__"
    · have hset : objSet o kv.1 kv.2 = o := by
        unfold objSet
        rw [if_pos hkv]
      rw [hset]
      by_cases hp : p.1 = "__proto__"
      · simp [hp]
      · have hne : ¬ kv.1 = p.1 := fun e => hp (e ▸ hkv)
        simp only [lastValue, hne, if_false]
        cases lastValue kvs p.1 <;> simp
    · rw [mem_objSet o kv.1 kv.2 hkv p]
      simp only [lastValue]
      cases hlv : lastValue kvs p.1 with
      | some w =>
        simp only [reduceCtorEq, or_false]
        constructor
        · rintro (h | ⟨h, h'⟩)
          · exact Or.inl h
          · rcases h' with h' | ⟨h', _⟩
            · rw [h'] at h
              exact absurd h hkv
            · exact Or.inr ⟨h, h'⟩
        · rintro (h | ⟨h, h'⟩)
          · exact Or.inl h
          · exact Or.inr ⟨h, Or.inr ⟨h', fun e => hkv (by rw [← e, h])⟩⟩
      | none =>
        simp only [reduceCtorEq, and_false, false_or, or_true, true_and]
        by_cases hpk : kv.1 = p.1
        · rw [if_pos hpk]
          have hp : p.1 ≠ "__proto__" := fun e => hkv (by rw [hpk, e])
          constructor
          · rintro (h | ⟨_, h⟩)
            · exact Or.inl ⟨hp, by rw [h]⟩
            · exact absurd hpk.symm h
          · rintro (⟨_, h⟩ | ⟨h | h, _⟩)
            · exact Or.inl (Prod.ext hpk.symm (Option.some.inj h).symm)
            · exact absurd h hp
            · exact Option.noConfusion h
        · rw [if_neg hpk]
          constructor
          · rintro (h | ⟨h, _⟩)
            · exact absurd (by rw [h]) hpk
            · exact Or.inr ⟨Or.inr rfl, h⟩
          · rintro (⟨_, h⟩ | ⟨_, h⟩)
            · exact Option.noConfusion h
            · exact Or.inr ⟨h, fun e => hpk e.symm⟩

theorem objGet_foldl_objSet (kvs : List (String × Value)) (k : String)
    (hk : k ≠ "__proto__") :
    objGet (kvs.foldl (fun o kv => objSet o kv.1 kv.2) []) k = lastValue kvs k := by
  obtain ⟨hnd, hmem⟩ := foldl_objSet_mem kvs [] (by simp)
  cases hlv : lastValue kvs k with
  | some v =>
    exact objGet_eq_some _ hnd k v ((hmem (k, v)).mpr (Or.inl ⟨hk, hlv⟩))
  | none =>
    apply objGet_eq_none
    intro p hp hpk
    rcases (hmem p).mp hp with ⟨_, h⟩ | ⟨_, h⟩
    · rw [hpk, hlv] at h
      exact Option.noConfusion h
    · simp at h

theorem decodeEntries_assign (P : Protocol) (l : Bool) (post : List Byte) :
    ∀ (es : List Entry) (pre : List Byte) (obj : JSObject) (em : List String),
    (∀ e ∈ es, e.Valid) →
    decodeEntries P l (pre ++ (es.flatMap Entry.bytes ++ post)) es.length pre.length obj em
      = assignEntries P l es obj em := by
  intro es
  induction es with
  | nil =>
    intro pre obj em _
    simp [decodeEntries, assignEntries]
  | cons e es ih =>
    intro pre obj em hv
    have hB : pre ++ ((e :: es).flatMap Entry.bytes ++ post)
        = pre ++ (e.bytes ++ (es.flatMap Entry.bytes ++ post)) := by simp
    rw [hB, List.length_cons, decodeEntries_step P l pre _ e (hv e (List.mem_cons_self _ _)),
      assignEntries, decode_REPL_VAL]
    cases hd : (decodeVal P l e.enc e.value.length e.value).result with
    | error err => rfl
    | ok val =>
      simp only []
      have hB2 : pre ++ (e.bytes ++ (es.flatMap Entry.bytes ++ post))
          = (pre ++ e.bytes) ++ (es.flatMap Entry.bytes ++ post) := by simp
      have hl : pre.length + e.bytes.length = (pre ++ e.bytes).length := by simp
      rw [hB2, hl, ih (pre ++ e.bytes) _ _ (fun g hg => hv g (List.mem_cons_of_mem _ hg))]

theorem decode_map_assign (P : Protocol) (l : Bool) (encoding size : Nat) (es : List Entry)
    (hP : P.REPL_KVAL ≠ P.REPL_VAL) (hN : es.length < 4294967296)
    (hv : ∀ e ∈ es, e.Valid) :
    decode P l P.REPL_KVAL encoding size (mapPayload es) = assignEntries P l es [] [] := by
  have hcount : readUInt32LE (mapPayload es) 0 = .ok es.length := by
    have := readUInt32LE_u32le es.length (es.flatMap Entry.bytes)
    rw [Nat.mod_eq_of_lt hN] at this
    exact this
  have hall := decodeEntries_assign P l [] es (u32le es.length) [] [] hv
  simp only [List.append_nil, u32le_length] at hall
  unfold decode
  rw [if_neg hP, if_pos rfl]
  simp only [hcount]
  unfold mapPayload
  exact hall

theorem assignEntries_scalar (P : Protocol) (l : Bool) :
    ∀ (es : List Entry) (obj : JSObject) (em : List String),
    (∀ p ∈ obj, (∃ s, p.2 = Value.text s) ∨ (∃ n, p.2 = Value.number n) ∨ p.2 = Value.undefined) →
    (match (assignEntries P l es obj em).result with
     | .error _ => True
     | .ok (.object props) =>
       ∀ p ∈ props, (∃ s, p.2 = Value.text s) ∨ (∃ n, p.2 = Value.number n) ∨ p.2 = Value.undefined
     | .ok _ => False) := by
  intro es
  induction es with
  | nil =>
    intro obj em h
    simp only [assignEntries]
    exact h
  | cons e es ih =>
    intro obj em h
    rw [assignEntries, decode_REPL_VAL]
    cases hd : (decodeVal P l e.enc e.value.length e.value).result with
    | error err => trivial
    | ok val =>
      simp only []
      apply ih
      intro p hp
      rcases mem_objSet_imp _ _ _ p hp with hp | hp
      · rw [hp]
        exact decodeVal_scalar P l _ _ _ _ hd
      · exact h p hp

/-- Where the scalar path decodes every value, the assignments give the object
built from the pairs of key text and decoded value, in payload order. -/
theorem assignEntries_values (P : Protocol) (l : Bool) :
    ∀ (es : List Entry) (vals : List Value) (obj : JSObject) (em : List String),
    List.Forall₂
      (fun e v => (decode P l P.REPL_VAL e.enc e.value.length e.value).result = .ok v) es vals →
    (assignEntries P l es obj em).result
      = .ok (.object (((es.map (fun e => bufToString e.key)).zip vals).foldl
          (fun o kv => objSet o kv.1 kv.2) obj)) := by
  intro es vals obj em h
  induction h generalizing obj em with
  | nil => simp [assignEntries]
  | @cons e w es' vs' hr _ ih =>
    rw [assignEntries]
    simp only [hr]
    rw [ih]
    simp

/-- C17 (counterexample): an entry whose encoding octet is unknown is stored with
the value `undefined`, which is neither a text nor an integer. -/
theorem C17_counterexample :
    decode sampleProtocol true sampleProtocol.REPL_KVAL 0 0 (mapPayload [⟨[97], 1, [120]⟩])
      = ⟨.ok (.object [("a", .undefined)]), ["Unknown encoding"]⟩ := by
  decide

/-- C17 (amended): for every well-formed map payload, each entry's value is
decoded by the scalar path with that entry's own encoding octet and value size:
decoding the map is the same as assigning, entry by entry in payload order,
`obj[key] = decode(REPL_VAL, enc, vsize, value octets)`, an exception of that
call ending the decoding; consequently every value in a decoded map is a text,
an integer or `undefined` (unknown encoding octet), and never itself a map. -/
theorem C17_map_values_scalar (P : Protocol) (l : Bool) (encoding size : Nat)
    (es : List Entry)
    (hP : P.REPL_KVAL ≠ P.REPL_VAL) (hN : es.length < 4294967296)
    (hv : ∀ e ∈ es, e.Valid) :
    decode P l P.REPL_KVAL encoding size (mapPayload es) = assignEntries P l es [] [] ∧
    (match (decode P l P.REPL_KVAL encoding size (mapPayload es)).result with
     | .error _ => True
     | .ok (.object props) =>
       ∀ p ∈ props, (∃ s, p.2 = Value.text s) ∨ (∃ n, p.2 = Value.number n) ∨ p.2 = Value.undefined
     | .ok _ => False) := by
  have h1 := decode_map_assign P l encoding size es hP hN hv
  refine ⟨h1, ?_⟩
  rw [h1]
  exact assignEntries_scalar P l es [] [] (by simp)

/-- Witness of C17 (amended): the entries `a ↦ "x"`, `b ↦ 1`, `a ↦ 2` and an
entry `c` with the unknown encoding octet 1. -/
theorem C17_map_values_scalar_witness :
    decode sampleProtocol true sampleProtocol.REPL_KVAL 0 0
        (mapPayload [⟨[97], 0, [120]⟩, ⟨[98], 2, [1, 0, 0, 0]⟩, ⟨[97], 2, [2, 0, 0, 0]⟩,
          ⟨[99], 1, [120]⟩])
      = assignEntries sampleProtocol true
          [⟨[97], 0, [120]⟩, ⟨[98], 2, [1, 0, 0, 0]⟩, ⟨[97], 2, [2, 0, 0, 0]⟩, ⟨[99], 1, [120]⟩]
          [] [] ∧
    (match (decode sampleProtocol true sampleProtocol.REPL_KVAL 0 0
        (mapPayload [⟨[97], 0, [120]⟩, ⟨[98], 2, [1, 0, 0, 0]⟩, ⟨[97], 2, [2, 0, 0, 0]⟩,
          ⟨[99], 1, [120]⟩])).result with
     | .error _ => True
     | .ok (.object props) =>
       ∀ p ∈ props, (∃ s, p.2 = Value.text s) ∨ (∃ n, p.2 = Value.number n) ∨ p.2 = Value.undefined
     | .ok _ => False) :=
  C17_map_values_scalar sampleProtocol true 0 0
    [⟨[97], 0, [120]⟩, ⟨[98], 2, [1, 0, 0, 0]⟩, ⟨[97], 2, [2, 0, 0, 0]⟩, ⟨[99], 1, [120]⟩]
    (by decide) (by decide) (by decide)

/-- The assignments of the witness above, evaluated: `a` holds the value decoded
with the encoding of its last entry, `b` the value decoded with its own, `c`
the value `undefined`. -/
theorem assignEntries_example :
    assignEntries sampleProtocol true
        [⟨[97], 0, [120]⟩, ⟨[98], 2, [1, 0, 0, 0]⟩, ⟨[97], 2, [2, 0, 0, 0]⟩, ⟨[99], 1, [120]⟩]
        [] []
      = ⟨.ok (.object [("a", .number 2), ("b", .number 1), ("c", .undefined)]),
          ["Unknown encoding"]⟩ := by
  decide

/-- Without an `'error'` listener the exception of the scalar path ends the
decoding of the map. -/
theorem assignEntries_throw_example :
    decode sampleProtocol false sampleProtocol.REPL_KVAL 0 0
        (mapPayload [⟨[97], 0, [120]⟩, ⟨[99], 1, [120]⟩])
      = ⟨.error (.unhandledError "Unknown encoding"), []⟩ ∧
    decode sampleProtocol true sampleProtocol.REPL_KVAL 0 0
        (mapPayload [⟨[97], 0, [120]⟩, ⟨[98], 2, [1, 0]⟩])
      = ⟨.error .rangeError, []⟩ := by
  decide

/-- Where the scalar path decodes every value, every key other than `__proto__`
holds in the decoded map the value decoded for the last entry with that key. -/
theorem map_values_last (P : Protocol) (l : Bool) (encoding size : Nat)
    (es : List Entry) (vals : List Value)
    (hP : P.REPL_KVAL ≠ P.REPL_VAL) (hN : es.length < 4294967296)
    (hv : ∀ e ∈ es, e.Valid)
    (hdec : List.Forall₂
      (fun e v => (decode P l P.REPL_VAL e.enc e.value.length e.value).result = .ok v) es vals) :
    ∃ props : JSObject,
      (decode P l P.REPL_KVAL encoding size (mapPayload es)).result = .ok (.object props) ∧
      ∀ k, k ≠ "__proto__" →
        objGet props k = lastValue ((es.map (fun e => bufToString e.key)).zip vals) k := by
  refine ⟨_, ?_, fun k hk => objGet_foldl_objSet _ k hk⟩
  rw [decode_map_assign P l encoding size es hP hN hv]
  exact assignEntries_values P l es vals [] [] hdec

/-! ### Ill-formed UTF-8 in texts and keys -/

/-- A truncated sequence gives one U+FFFD and decoding resumes at the octet that
broke it: `e2 82 41` is U+FFFD followed by `A`. -/
theorem utf8Decode_truncated :
    (utf8Decode [0xE2, 0x82, 0x41]).map Char.toNat = [0xFFFD, 0x41] ∧
    (utf8Decode [0xE2, 0x82]).map Char.toNat = [0xFFFD] ∧
    (utf8Decode [0xF0, 0x9F, 0x98]).map Char.toNat = [0xFFFD] ∧
    (utf8Decode [0xC0, 0x80]).map Char.toNat = [0xFFFD, 0xFFFD] ∧
    (utf8Decode [0xED, 0xA0, 0x80]).map Char.toNat = [0xFFFD, 0xFFFD, 0xFFFD] ∧
    (utf8Decode [0xF4, 0x90, 0x80, 0x80]).map Char.toNat = [0xFFFD, 0xFFFD, 0xFFFD, 0xFFFD] := by
  decide

/-- The keys `e2 82` (truncated) and `ef bf bd` (U+FFFD) are the same text: the
map of a payload with these two keys has one pair, holding the later value. -/
theorem map_ill_formed_keys_merge :
    decode sampleProtocol true sampleProtocol.REPL_KVAL 0 0
        (mapPayload [⟨[0xE2, 0x82], 0, [120]⟩, ⟨[0xEF, 0xBF, 0xBD], 0, [121]⟩])
      = ⟨.ok (.object [(bufToString [0xEF, 0xBF, 0xBD], .text "y")]), []⟩ := by
  decide

end Gibson
